import Mathlib

/-!
Shallow embedding of the liquidity-trading backtester core
(`src/data/order.py`, `src/backtest/book.py`, `src/backtest/agent.py`,
`src/backtest/backtest.py`).  Prices and timestamps are modelled as
rationals, quantities and order ids as integers.  Python dicts are
modelled as association lists in insertion order (a new key is appended
at the end, an existing key is updated in place), which matches the
iteration and `sorted(...)` behaviour the code relies on.
-/

namespace Liquidity

/-- An order message (`src/data/order.py`, class `Order`).
`msg_type` and `side` are kept as strings, as in the source, since the
backtester compares them with string literals. -/
structure Order where
  network_time : ℚ
  bist_time : ℚ
  msg_type : String
  asset_name : String
  side : String
  price : ℚ
  quantity : ℤ
  order_id : ℤ
  deriving DecidableEq, Repr

/-- Pydantic validation performed when an `Order` is constructed:
`msg_type` must be one of the literals "A", "D", "E" and `side` one of
"B", "S"; no constraint is placed on the sign of `price` or `quantity`
(the model declares them as plain `float` / `int`). -/
def Order.construct (network_time bist_time : ℚ) (msg_type asset_name side : String)
    (price : ℚ) (quantity : ℤ) (order_id : ℤ) : Option Order :=
  if (msg_type = "A" ∨ msg_type = "D" ∨ msg_type = "E")
      ∧ (side = "B" ∨ side = "S") then
    some ⟨network_time, bist_time, msg_type, asset_name, side, price, quantity, order_id⟩
  else
    none

/-! ### Association-list maps (python dicts, insertion ordered) -/

/-- `dict.get(p, none)` on a price → quantity map. -/
def pmGet (m : List (ℚ × ℤ)) (p : ℚ) : Option ℤ :=
  match m with
  | [] => none
  | (p', v) :: rest => if p' = p then some v else pmGet rest p

/-- `dict[p] = v`: update in place if present, else append (python keeps
insertion order and appends new keys at the end). -/
def pmSet (m : List (ℚ × ℤ)) (p : ℚ) (v : ℤ) : List (ℚ × ℤ) :=
  match m with
  | [] => [(p, v)]
  | (p', v') :: rest => if p' = p then (p, v) :: rest else (p', v') :: pmSet rest p v

/-- `dict.pop(p)`: remove the first entry with key `p`. -/
def pmErase (m : List (ℚ × ℤ)) (p : ℚ) : List (ℚ × ℤ) :=
  match m with
  | [] => []
  | (p', v') :: rest => if p' = p then rest else (p', v') :: pmErase rest p

/-- Lookup in an id → order map. -/
def toGet (m : List (ℤ × Order)) (i : ℤ) : Option Order :=
  match m with
  | [] => none
  | (i', o) :: rest => if i' = i then some o else toGet rest i

/-- `dict[i] = o` on an id → order map. -/
def toSet (m : List (ℤ × Order)) (i : ℤ) (o : Order) : List (ℤ × Order) :=
  match m with
  | [] => [(i, o)]
  | (i', o') :: rest => if i' = i then (i, o) :: rest else (i', o') :: toSet rest i o

/-- `dict.pop(i)` on an id → order map. -/
def toErase (m : List (ℤ × Order)) (i : ℤ) : List (ℤ × Order) :=
  match m with
  | [] => []
  | (i', o') :: rest => if i' = i then rest else (i', o') :: toErase rest i

/-- `test_orders[i].quantity = v` (in-place field update; never inserts). -/
def toSetQty (m : List (ℤ × Order)) (i : ℤ) (v : ℤ) : List (ℤ × Order) :=
  match m with
  | [] => []
  | (i', o') :: rest =>
      if i' = i then (i', { o' with quantity := v }) :: rest
      else (i', o') :: toSetQty rest i v

/-! ### Stable insertion sort by a rational key (python `sorted`) -/

/-- Insert keeping ascending key order; an element being inserted came
earlier in the original list, so on key ties it goes first (stability of
python's `sorted`). -/
def insertAsc {α : Type} (key : α → ℚ) (x : α) : List α → List α
  | [] => [x]
  | y :: ys => if key x ≤ key y then x :: y :: ys else y :: insertAsc key x ys

/-- Stable sort, ascending by key (`sorted(..., key=...)`). -/
def sortAsc {α : Type} (key : α → ℚ) : List α → List α
  | [] => []
  | x :: xs => insertAsc key x (sortAsc key xs)

/-- Insert keeping descending key order, stable on ties. -/
def insertDesc {α : Type} (key : α → ℚ) (x : α) : List α → List α
  | [] => [x]
  | y :: ys => if key y ≤ key x then x :: y :: ys else y :: insertDesc key x ys

/-- Stable sort, descending by key (`sorted(..., key=..., reverse=True)`). -/
def sortDesc {α : Type} (key : α → ℚ) : List α → List α
  | [] => []
  | x :: xs => insertDesc key x (sortDesc key xs)

/-! ### Limit order book (`src/backtest/book.py`) -/

/-- `PriceTable` dataclass; all fields default to `None`. -/
structure PriceTable where
  mid_price : Option ℚ := none
  best_bid_price : Option ℚ := none
  best_ask_price : Option ℚ := none
  last_bid_price : Option ℚ := none
  last_ask_price : Option ℚ := none
  deriving DecidableEq, Repr

/-- `LimitOrderBook` state.  The snapshot list `lob` is not needed by any
claim and is omitted; `mold_package` is kept as the list of processed
orders so the snapshot-trigger logic of `create_snapshot` is faithful. -/
structure Book where
  orders : List (ℤ × Order) := []
  bid_prices : List (ℚ × ℤ) := []
  ask_prices : List (ℚ × ℤ) := []
  last_timestamp : Option ℚ := none
  mold_package : List Order := []
  price_table : PriceTable := {}
  deriving DecidableEq, Repr

/-- `sorted_bids()`: ascending by price, best (highest) bid last. -/
def Book.sorted_bids (b : Book) : List (ℚ × ℤ) :=
  sortAsc Prod.fst b.bid_prices

/-- `sorted_asks()`: descending by price, best (lowest) ask last. -/
def Book.sorted_asks (b : Book) : List (ℚ × ℤ) :=
  sortDesc Prod.fst b.ask_prices

/-- `create_snapshot()`: emits a snapshot (not tracked here) and clears
the mold package, doing nothing when the mold package is empty. -/
def Book.create_snapshot (b : Book) : Book :=
  if b.mold_package = [] then b else { b with mold_package := [] }

/-- `update_price_table()`: refreshes best bid / best ask / mid only when
both sides of the book are non-empty; `last_*` are never written. -/
def Book.update_price_table (b : Book) : Book :=
  match (Book.sorted_bids b).getLast?, (Book.sorted_asks b).getLast? with
  | some bb, some aa =>
      { b with price_table :=
          { b.price_table with
              best_bid_price := some bb.1
              best_ask_price := some aa.1
              mid_price := some ((bb.1 + aa.1) / 2) } }
  | _, _ => b

/-- `_process_add_order`. -/
def Book.processAdd (b : Book) (o : Order) : Book :=
  let b := { b with orders := toSet b.orders o.order_id o }
  let b :=
    if o.side = "B" then
      let qty := (pmGet b.bid_prices o.price).getD 0
      { b with bid_prices := pmSet b.bid_prices o.price (qty + o.quantity) }
    else
      let qty := (pmGet b.ask_prices o.price).getD 0
      { b with ask_prices := pmSet b.ask_prices o.price (qty + o.quantity) }
  { b with mold_package := b.mold_package ++ [o] }

/-- `_process_delete_order`.  Fails (python `KeyError`) when the id or the
price level is missing.  The delete message's `price` and `quantity` are
overwritten from the resting order before the maps are touched. -/
def Book.processDelete (b : Book) (o : Order) : Option Book :=
  match toGet b.orders o.order_id with
  | none => none
  | some deleted =>
    let o := { o with quantity := deleted.quantity, price := deleted.price }
    let b := { b with orders := toErase b.orders o.order_id }
    if o.side = "B" then
      match pmGet b.bid_prices o.price with
      | none => none
      | some qty =>
        let bp := if o.quantity = qty then pmErase b.bid_prices o.price
                  else pmSet b.bid_prices o.price (qty - o.quantity)
        some { b with bid_prices := bp, mold_package := b.mold_package ++ [o] }
    else
      match pmGet b.ask_prices o.price with
      | none => none
      | some qty =>
        let ap := if o.quantity = qty then pmErase b.ask_prices o.price
                  else pmSet b.ask_prices o.price (qty - o.quantity)
        some { b with ask_prices := ap, mold_package := b.mold_package ++ [o] }

/-- `_process_execute_order`.  The execute message's `price` is overwritten
from the resting order; `last_bid_price` / `last_ask_price` advance. -/
def Book.processExecute (b : Book) (o : Order) : Option Book :=
  match toGet b.orders o.order_id with
  | none => none
  | some target =>
    let target := { target with quantity := target.quantity - o.quantity }
    let o := { o with price := target.price }
    let b :=
      if target.quantity = (0 : ℤ) then { b with orders := toErase b.orders o.order_id }
      else { b with orders := toSet b.orders o.order_id target }
    if o.side = "B" then
      match pmGet b.bid_prices o.price with
      | none => none
      | some qty =>
        let bp := if o.quantity = qty then pmErase b.bid_prices o.price
                  else pmSet b.bid_prices o.price (qty - o.quantity)
        some { b with bid_prices := bp,
                      price_table := { b.price_table with last_bid_price := some o.price },
                      mold_package := b.mold_package ++ [o] }
    else
      match pmGet b.ask_prices o.price with
      | none => none
      | some qty =>
        let ap := if o.quantity = qty then pmErase b.ask_prices o.price
                  else pmSet b.ask_prices o.price (qty - o.quantity)
        some { b with ask_prices := ap,
                      price_table := { b.price_table with last_ask_price := some o.price },
                      mold_package := b.mold_package ++ [o] }

/-- The preamble of `LimitOrderBook.process`: when the stored
`last_timestamp` is set and differs from the incoming message's network
time, a snapshot is produced; then `last_timestamp` advances. -/
def Book.presnap (b : Book) (o : Order) : Book × Bool :=
  let snap : Bool := match b.last_timestamp with
    | none => false
    | some t => t ≠ o.network_time
  let b := if snap then Book.create_snapshot b else b
  ({ b with last_timestamp := some o.network_time }, snap)

/-- `LimitOrderBook.process(order)`: snapshot bookkeeping, then dispatch on
the message type.  Returns the updated book together with the
`snapshot_created` flag; `none` models a raised `KeyError`. -/
def Book.process (b : Book) (o : Order) : Option (Book × Bool) :=
  let p := Book.presnap b o
  if o.msg_type = "A" then
    some (Book.processAdd p.1 o, p.2)
  else if o.msg_type = "D" then
    (Book.processDelete p.1 o).map (·, p.2)
  else
    (Book.processExecute p.1 o).map (·, p.2)

/-! ### Backtest state (`src/backtest/backtest.py`, `src/backtest/agent.py`) -/

/-- The mutable state of `Backtest` together with the agent's `Balance`.
`num_orders` counts the orders the agent has returned so far (the number
of times `order_cost` has been charged). -/
structure BState where
  book : Book := {}
  money : ℚ := 0
  held_money : ℚ := 0
  stock : ℤ := 0
  held_stock : ℤ := 0
  test_orders : List (ℤ × Order) := []
  finished_orders : List ℤ := []
  network2bist : List Order := []
  bist2network : List Order := []
  last_timestamp : ℚ := 0
  latency : ℚ := 0
  num_orders : ℕ := 0
  deriving DecidableEq, Repr

/-- The `while prices and bid.quantity` loop of `_run_single_bid`.
`prices` is given best-first (the python working list is worst-first and
popped from the end, so its reverse is consumed from the head).  Returns
the emitted execute messages in order, the remaining prices (best-first,
with a partially eaten level pushed back), the bid's remaining quantity
and the `is_stopped` flag. -/
def bidLoop (limit : ℚ) (mk : ℚ → ℤ → Order) :
    List (ℚ × ℤ) → ℤ → List Order × List (ℚ × ℤ) × ℤ × Bool
  | [], bidQty => ([], [], bidQty, false)
  | (px, qty) :: rest, bidQty =>
    if bidQty ≤ 0 then ([], (px, qty) :: rest, bidQty, false)
    else if limit < px then
      ([], if 0 < qty then (px, qty) :: rest else rest, bidQty, true)
    else
      let e := min bidQty qty
      let qty' := qty - e
      let bid' := bidQty - e
      if bid' = 0 then
        ([mk px e], if 0 < qty' then (px, qty') :: rest else rest, 0, false)
      else
        let r := bidLoop limit mk rest bid'
        (mk px e :: r.1, r.2.1, r.2.2.1, r.2.2.2)

/-- `_run_single_bid`: sweeps one agent bid over the working copy of the
ask levels, emitting synthetic "E" messages at the touched level's price.
Returns (emitted messages, updated worst-first price list, is_stopped,
fully-executed flag). -/
def run_single_bid (ts lat : ℚ) (bid : Order) (prices : List (ℚ × ℤ)) :
    List Order × List (ℚ × ℤ) × Bool × Bool :=
  let mk : ℚ → ℤ → Order := fun px e =>
    { network_time := ts + lat, bist_time := ts, msg_type := "E",
      asset_name := bid.asset_name, side := "B", price := px,
      quantity := e, order_id := bid.order_id }
  let r := bidLoop bid.price mk prices.reverse bid.quantity
  (r.1, r.2.1.reverse, r.2.2.2, r.2.2.1 = 0)

/-- The `while asks and prices` analogue for `_run_single_ask`: identical
shape, but the stop test is `ask.price > px` and the emitted execute
carries the agent's limit price rather than the touched level's. -/
def askLoop (limit : ℚ) (mk : ℤ → Order) :
    List (ℚ × ℤ) → ℤ → List Order × List (ℚ × ℤ) × ℤ × Bool
  | [], askQty => ([], [], askQty, false)
  | (px, qty) :: rest, askQty =>
    if askQty ≤ 0 then ([], (px, qty) :: rest, askQty, false)
    else if px < limit then
      ([], if 0 < qty then (px, qty) :: rest else rest, askQty, true)
    else
      let e := min askQty qty
      let qty' := qty - e
      let ask' := askQty - e
      if ask' = 0 then
        ([mk e], if 0 < qty' then (px, qty') :: rest else rest, 0, false)
      else
        let r := askLoop limit mk rest ask'
        (mk e :: r.1, r.2.1, r.2.2.1, r.2.2.2)

/-- `_run_single_ask`. -/
def run_single_ask (ts lat : ℚ) (ask : Order) (prices : List (ℚ × ℤ)) :
    List Order × List (ℚ × ℤ) × Bool × Bool :=
  let mk : ℤ → Order := fun e =>
    { network_time := ts + lat, bist_time := ts, msg_type := "E",
      asset_name := ask.asset_name, side := "S", price := ask.price,
      quantity := e, order_id := ask.order_id }
  let r := askLoop ask.price mk prices.reverse ask.quantity
  (r.1, r.2.1.reverse, r.2.2.2, r.2.2.1 = 0)

/-- The `while bids and prices` loop of `_run_bids`: sweep each collected
bid in turn, threading the working price list, aborting on the first
non-crossing level.  Returns emitted messages and finished order ids. -/
def run_bids_loop (ts lat : ℚ) : List Order → List (ℚ × ℤ) → List Order × List ℤ
  | [], _ => ([], [])
  | bid :: rest, prices =>
    if prices = [] then ([], [])
    else
      let r := run_single_bid ts lat bid prices
      let fins := if r.2.2.2 then [bid.order_id] else []
      if r.2.2.1 then (r.1, fins)
      else
        let r2 := run_bids_loop ts lat rest r.2.1
        (r.1 ++ r2.1, fins ++ r2.2)

/-- The agent's live bids, as collected by `_run_bids`: entries of
`test_orders` with side "B" and id not in `finished_orders`, sorted by
price descending (python's stable `sorted(..., reverse=True)`). -/
def collect_bids (s : BState) : List Order :=
  (sortDesc (fun p => p.2.price)
    (s.test_orders.filter fun p =>
      decide (p.2.side = "B" ∧ p.1 ∉ s.finished_orders))).map Prod.snd

/-- `_run_bids`. -/
def run_bids (s : BState) : BState :=
  let r := run_bids_loop s.last_timestamp s.latency (collect_bids s) s.book.sorted_asks
  { s with bist2network := s.bist2network ++ r.1,
           finished_orders := s.finished_orders ++ r.2 }

/-- The loop of `_run_asks`. -/
def run_asks_loop (ts lat : ℚ) : List Order → List (ℚ × ℤ) → List Order × List ℤ
  | [], _ => ([], [])
  | ask :: rest, prices =>
    if prices = [] then ([], [])
    else
      let r := run_single_ask ts lat ask prices
      let fins := if r.2.2.2 then [ask.order_id] else []
      if r.2.2.1 then (r.1, fins)
      else
        let r2 := run_asks_loop ts lat rest r.2.1
        (r.1 ++ r2.1, fins ++ r2.2)

/-- The orders collected by `_run_asks`: the source filters on
`ask.side == "A"` (not "S"), mirrored here verbatim. -/
def collect_asks (s : BState) : List Order :=
  (sortAsc (fun p => p.2.price)
    (s.test_orders.filter fun p =>
      decide (p.2.side = "A" ∧ p.1 ∉ s.finished_orders))).map Prod.snd

/-- `_run_asks`. -/
def run_asks (s : BState) : BState :=
  let r := run_asks_loop s.last_timestamp s.latency (collect_asks s) s.book.sorted_bids
  { s with bist2network := s.bist2network ++ r.1,
           finished_orders := s.finished_orders ++ r.2 }

/-- `_run_market_maker`: bids sweep, then asks sweep. -/
def run_market_maker (s : BState) : BState :=
  run_asks (run_bids s)

/-- `_execute_add`: reserve money (side "B") or stock (otherwise); an
order the balance cannot cover is silently dropped. -/
def execute_add (s : BState) (o : Order) : BState :=
  if o.side = "B" then
    let total := o.price * (o.quantity : ℚ)
    if s.money < total then s
    else { s with money := s.money - total, held_money := s.held_money + total,
                  test_orders := toSet s.test_orders o.order_id o }
  else
    if s.stock < o.quantity then s
    else { s with stock := s.stock - o.quantity, held_stock := s.held_stock + o.quantity,
                  test_orders := toSet s.test_orders o.order_id o }

/-- `_execute_cancel`: pop the order (no-op when absent), rewrite the
cancel into a "D" message carrying the cancelled order's price and
quantity, and enqueue it on the bist→network queue. -/
def execute_cancel (s : BState) (o : Order) : BState :=
  match toGet s.test_orders o.order_id with
  | none => s
  | some c =>
    let d := { o with
                 msg_type := "D"
                 network_time := o.bist_time + s.latency
                 quantity := c.quantity
                 price := c.price }
    { s with test_orders := toErase s.test_orders o.order_id,
             bist2network := s.bist2network ++ [d] }

/-- `_execute_delete`: release the held money (side "B") or stock. -/
def execute_delete (s : BState) (o : Order) : BState :=
  let total := o.price * (o.quantity : ℚ)
  if o.side = "B" then
    { s with money := s.money + total, held_money := s.held_money - total }
  else
    { s with stock := s.stock + o.quantity, held_stock := s.held_stock - o.quantity }

/-- `_execute_execute`: settle a synthetic fill against the resting test
order; `none` models the `KeyError` raised for an unknown id. -/
def execute_execute (s : BState) (o : Order) : Option BState :=
  match toGet s.test_orders o.order_id with
  | none => none
  | some ex =>
    let q := min ex.quantity o.quantity
    let total := o.price * (q : ℚ)
    if o.side = "B" then
      let expected := ex.price * (q : ℚ)
      let s := { s with held_money := s.held_money - expected,
                        stock := s.stock + q,
                        money := s.money + (expected - total) }
      if ex.quantity = q then
        some { s with finished_orders := s.finished_orders ++ [o.order_id],
                      test_orders := toErase s.test_orders o.order_id }
      else
        some { s with test_orders := toSetQty s.test_orders o.order_id (ex.quantity - q) }
    else
      let s := { s with money := s.money + total, held_stock := s.held_stock - q }
      if ex.quantity = q then
        some { s with finished_orders := s.finished_orders ++ [o.order_id],
                      test_orders := toErase s.test_orders o.order_id }
      else
        some { s with test_orders := toSetQty s.test_orders o.order_id (ex.quantity - q) }

/-! ### The event loop as a step relation

The scheduler (`Backtest.run`) interleaves: reading history into the
book (with a market-maker run at each new BIST instant), charging the
per-order fee when the agent returns orders, handling agent messages
("A" / "C") from the net→bist queue, and delivering exchange messages
("D" / "E") from the front of the bist→net queue.  The relation below
admits these actions in any order, so every trace of the scheduler on a
spec-conformant input stream and agent (non-negative prices and
quantities, valid sides, unique agent order ids, history that keeps the
book consistent) is a trace of the relation. -/

/-- Spec-conformant message: declared side, non-negative numeric fields
(spec §3: price non-negative real, quantity non-negative integer). -/
def wfOrder (o : Order) : Prop :=
  (o.side = "B" ∨ o.side = "S") ∧ 0 ≤ o.price ∧ 0 ≤ o.quantity

/-- Book whose price levels all carry non-negative prices and
quantities (spec §3 LOB invariant; history is trusted to preserve it). -/
def wfBook (b : Book) : Prop :=
  (∀ pq ∈ b.bid_prices, 0 ≤ pq.1 ∧ 0 ≤ pq.2) ∧
  (∀ pq ∈ b.ask_prices, 0 ≤ pq.1 ∧ 0 ≤ pq.2)

/-- A fresh agent order id: never seen by the accountant (spec §4.F: the
agent assigns unique 64-bit ids). -/
def freshId (s : BState) (i : ℤ) : Prop :=
  toGet s.test_orders i = none ∧ i ∉ s.finished_orders ∧
  ∀ m ∈ s.bist2network, m.order_id ≠ i

/-- One scheduler action, parameterised by the order cost `c`. -/
inductive Step (c : ℚ) : BState → BState → Prop
  /-- The agent returned `k` orders; `Agent.run` charges the fee at once. -/
  | fee (s : BState) (k : ℕ) :
      Step c s { s with money := s.money - c * k, num_orders := s.num_orders + k }
  /-- A historical message is applied to the public book. -/
  | hist (s : BState) (o : Order) (b' : Book) (sc : Bool) :
      wfOrder o → (o.msg_type = "A" ∨ o.msg_type = "D" ∨ o.msg_type = "E") →
      Book.process s.book o = some (b', sc) → wfBook b' →
      Step c s { s with book := b' }
  /-- The book's price table is refreshed at an instant boundary. -/
  | price (s : BState) :
      Step c s { s with book := Book.update_price_table s.book }
  /-- The matching engine runs. -/
  | sweep (s : BState) :
      Step c s (run_market_maker s)
  /-- An agent "A" message reaches `_execute_add`. -/
  | addO (s : BState) (o : Order) :
      wfOrder o → o.msg_type = "A" → freshId s o.order_id →
      Step c s (execute_add s o)
  /-- An agent "C" message reaches `_execute_cancel`; a cancel targets the
  agent's own order and carries its side. -/
  | cancelO (s : BState) (o : Order) :
      o.msg_type = "C" →
      (∀ t, toGet s.test_orders o.order_id = some t → o.side = t.side) →
      Step c s (execute_cancel s o)
  /-- The "D" message at the front of the bist→net queue is delivered. -/
  | delD (s : BState) (d : Order) (rest : List Order) :
      s.bist2network = d :: rest → d.msg_type = "D" →
      Step c s (execute_delete { s with bist2network := rest } d)
  /-- The "E" message at the front of the bist→net queue is delivered. -/
  | delE (s : BState) (e : Order) (rest : List Order) (s' : BState) :
      s.bist2network = e :: rest → e.msg_type = "E" →
      execute_execute { s with bist2network := rest } e = some s' →
      Step c s s'

/-- Reachability from a state through scheduler actions. -/
inductive Reach (c : ℚ) (s0 : BState) : BState → Prop
  | refl : Reach c s0 s0
  | tail {s s' : BState} : Reach c s0 s → Step c s s' → Reach c s0 s'

/-- The state at construction time: empty book and queues, the agent's
initial balance (`Agent.__init__` / `Backtest.__init__`). -/
def mkInit (money0 : ℚ) (stock0 : ℤ) (lat : ℚ) : BState :=
  { money := money0, stock := stock0, latency := lat }

/-- Deliver every message pending in the bist→net queue, in FIFO order,
as the scheduler does when no other message interleaves: "D" goes to
`_execute_delete`, "E" to `_execute_execute`, anything else is the fatal
`ValueError` of `_execute_bist2network`. -/
def drainAux : ℕ → BState → Option BState
  | 0, s => if s.bist2network = [] then some s else none
  | n + 1, s =>
    match s.bist2network with
    | [] => some s
    | m :: rest =>
      let s' := { s with bist2network := rest }
      if m.msg_type = "D" then drainAux n (execute_delete s' m)
      else if m.msg_type = "E" then (execute_execute s' m).bind (drainAux n)
      else none

/-- Deliver the whole bist→net queue. -/
def drain (s : BState) : Option BState :=
  drainAux s.bist2network.length s

/-- The set of orders the spec says the ask sweep works over: live
side-"S" entries of `test_orders` (claim C1's wording), to be compared
with `collect_asks`, which the source computes. -/
def spec_live_sells (s : BState) : List Order :=
  (s.test_orders.filter fun p =>
    decide (p.2.side = "S" ∧ p.1 ∉ s.finished_orders)).map Prod.snd

/-- The disjointness invariant of claim C3:
`finished_orders ∩ keys(test_orders) = ∅`. -/
def disjoint_finished (s : BState) : Prop :=
  ∀ i ∈ s.finished_orders, toGet s.test_orders i = none

/-! ### Concrete scenario states used by the claims -/

/-- A resting test sell order (admitted add, side "S"). -/
def c1_sell : Order := ⟨99, 99, "A", "X", "S", 10, 5, 1⟩

/-- A state with a live test sell at 10 and a public bid at 12 that
crosses it: the spec's ask sweep would fill it. -/
def c1_state : BState :=
  { book := { bid_prices := [(12, 10)] }, held_stock := 5,
    test_orders := [(1, c1_sell)], last_timestamp := 100, latency := 1 }

/-- Scenario S6's bid: id 5, price 9, quantity 10. -/
def c2_bid : Order := ⟨99, 99, "A", "X", "B", 9, 10, 5⟩

/-- The cancel request for id 5. -/
def c2_cxl : Order := ⟨100, 101, "C", "X", "B", 0, 0, 5⟩

/-- After the add: money 0, held 90, bid resting. -/
def c2_s1 : BState := execute_add (mkInit 90 0 1) c2_bid

/-- After the cancel: the bid is gone from `test_orders` but `held_money`
is still 90 until the delete confirmation arrives. -/
def c2_s2 : BState := execute_cancel c2_s1 c2_cxl

/-- A test bid (id 7, price 12, qty 10) for the sweep-window scenario. -/
def c3_a7 : Order := ⟨99, 99, "A", "X", "B", 12, 10, 7⟩

/-- A historical ask at 11 for 40. -/
def c3_h1 : Order := ⟨100, 100, "A", "X", "S", 11, 40, 1001⟩

/-- After the agent's add is admitted. -/
def c3_s1 : BState := execute_add (mkInit 120 0 1) c3_a7

/-- The book after processing the historical ask. -/
def c3_book : Book :=
  { orders := [(1001, c3_h1)], bid_prices := [], ask_prices := [(11, 40)],
    last_timestamp := some 100, mold_package := [c3_h1], price_table := {} }

/-- The state at the instant the market maker runs. -/
def c3_s2 : BState := { c3_s1 with book := c3_book }

/-- Scenario S5's resting bid: id 7, price 12, quantity 100. -/
def c5_bid : Order := ⟨99, 99, "A", "X", "B", 12, 100, 7⟩

/-- Scenario S5: public asks (11.0, 40) and (12.0, 200) only, the bid's
1200 already held. -/
def c5_state : BState :=
  { book := { ask_prices := [(11, 40), (12, 200)] }, money := 0, held_money := 1200,
    test_orders := [(7, c5_bid)], last_timestamp := 100, latency := 1 }

/-- The first synthetic execute of S5: 40 at 11.0. -/
def c5_e1 : Order := ⟨101, 100, "E", "X", "B", 11, 40, 7⟩

/-- The second synthetic execute of S5: 60 at 12.0. -/
def c5_e2 : Order := ⟨101, 100, "E", "X", "B", 12, 60, 7⟩

/-- A one-sided book (bids only) with a stale `best_bid_price` of 3. -/
def c9_book : Book :=
  { bid_prices := [(10, 5)], price_table := { best_bid_price := some 3 } }

/-- A two-sided book used to exercise the price-table refresh. -/
def c9w_book : Book :=
  { bid_prices := [(10, 5), (8, 2)], ask_prices := [(11, 3), (13, 4)] }

/-- A small book with one resting bid level, for the add/delete
round-trip. -/
def c7_book : Book := { bid_prices := [(10, 7)] }

/-- An add for the round-trip: bid 10 × 3, id 42. -/
def c7_a : Order := ⟨0, 0, "A", "X", "B", 10, 3, 42⟩

/-- The corresponding delete (its price and quantity fields are dummies:
the engine overwrites them from the resting order). -/
def c7_d : Order := ⟨1, 1, "D", "X", "B", 0, 0, 42⟩

/-! ### Lemmas about the association-list maps -/

theorem pmGet_mem {m : List (ℚ × ℤ)} {p : ℚ} {v : ℤ} (h : pmGet m p = some v) :
    (p, v) ∈ m := by
  induction m with
  | nil => simp [pmGet] at h
  | cons x rest ih =>
    obtain ⟨p', v'⟩ := x
    by_cases hp : p' = p
    · subst hp
      simp [pmGet] at h
      simp [h]
    · simp [pmGet, hp] at h
      exact List.mem_cons_of_mem _ (ih h)

theorem pmGet_none {m : List (ℚ × ℤ)} {p : ℚ} (h : pmGet m p = none) :
    ∀ v, (p, v) ∉ m := by
  induction m with
  | nil => simp
  | cons x rest ih =>
    obtain ⟨p', v'⟩ := x
    by_cases hp : p' = p
    · subst hp; simp [pmGet] at h
    · simp [pmGet, hp] at h
      intro v hv
      rcases List.mem_cons.1 hv with h1 | h1
      · exact hp (congrArg Prod.fst h1).symm
      · exact ih h v h1

theorem pmSet_absent {m : List (ℚ × ℤ)} {p : ℚ} (v : ℤ) (h : pmGet m p = none) :
    pmSet m p v = m ++ [(p, v)] := by
  induction m with
  | nil => simp [pmSet]
  | cons x rest ih =>
    obtain ⟨p', v'⟩ := x
    by_cases hp : p' = p
    · subst hp; simp [pmGet] at h
    · simp [pmGet, hp] at h
      simp [pmSet, hp, ih h]

theorem pmGet_self_set {m : List (ℚ × ℤ)} {p : ℚ} {v : ℤ} (h : pmGet m p = some v) :
    pmSet m p v = m := by
  induction m with
  | nil => simp [pmGet] at h
  | cons x rest ih =>
    obtain ⟨p', v'⟩ := x
    by_cases hp : p' = p
    · subst hp
      simp [pmGet] at h
      simp [pmSet, h]
    · simp [pmGet, hp] at h
      simp [pmSet, hp, ih h]

theorem pmSet_set (m : List (ℚ × ℤ)) (p : ℚ) (v w : ℤ) :
    pmSet (pmSet m p v) p w = pmSet m p w := by
  induction m with
  | nil => simp [pmSet]
  | cons x rest ih =>
    obtain ⟨p', v'⟩ := x
    by_cases hp : p' = p
    · subst hp; simp [pmSet]
    · simp [pmSet, hp, ih]

theorem pmGet_set_self (m : List (ℚ × ℤ)) (p : ℚ) (v : ℤ) :
    pmGet (pmSet m p v) p = some v := by
  induction m with
  | nil => simp [pmSet, pmGet]
  | cons x rest ih =>
    obtain ⟨p', v'⟩ := x
    by_cases hp : p' = p
    · subst hp; simp [pmSet, pmGet]
    · simp [pmSet, pmGet, hp, ih]

theorem pmErase_append {m : List (ℚ × ℤ)} {p : ℚ} (v : ℤ) (h : pmGet m p = none) :
    pmErase (m ++ [(p, v)]) p = m := by
  induction m with
  | nil => simp [pmErase]
  | cons x rest ih =>
    obtain ⟨p', v'⟩ := x
    by_cases hp : p' = p
    · subst hp; simp [pmGet] at h
    · simp [pmGet, hp] at h
      simp [pmErase, hp, ih h]

theorem pmGet_append_none {m l : List (ℚ × ℤ)} {p : ℚ} (h : pmGet m p = none) :
    pmGet (m ++ l) p = pmGet l p := by
  induction m with
  | nil => simp
  | cons x rest ih =>
    obtain ⟨p', v'⟩ := x
    by_cases hp : p' = p
    · subst hp; simp [pmGet] at h
    · simp [pmGet, hp] at h
      simp [pmGet, hp, ih h]

theorem toGet_mem {m : List (ℤ × Order)} {i : ℤ} {o : Order} (h : toGet m i = some o) :
    (i, o) ∈ m := by
  induction m with
  | nil => simp [toGet] at h
  | cons x rest ih =>
    obtain ⟨i', o'⟩ := x
    by_cases hi : i' = i
    · subst hi
      simp [toGet] at h
      simp [h]
    · simp [toGet, hi] at h
      exact List.mem_cons_of_mem _ (ih h)

theorem toSet_absent {m : List (ℤ × Order)} {i : ℤ} (o : Order) (h : toGet m i = none) :
    toSet m i o = m ++ [(i, o)] := by
  induction m with
  | nil => simp [toSet]
  | cons x rest ih =>
    obtain ⟨i', o'⟩ := x
    by_cases hi : i' = i
    · subst hi; simp [toGet] at h
    · simp [toGet, hi] at h
      simp [toSet, hi, ih h]

theorem toGet_toSet_self (m : List (ℤ × Order)) (i : ℤ) (o : Order) :
    toGet (toSet m i o) i = some o := by
  induction m with
  | nil => simp [toSet, toGet]
  | cons x rest ih =>
    obtain ⟨i', o'⟩ := x
    by_cases hi : i' = i
    · subst hi; simp [toSet, toGet]
    · simp [toSet, hi, toGet, ih]

theorem toGet_toSet_ne (m : List (ℤ × Order)) (i : ℤ) (o : Order) {j : ℤ} (hj : j ≠ i) :
    toGet (toSet m i o) j = toGet m j := by
  induction m with
  | nil => simp [toSet, toGet, Ne.symm hj]
  | cons x rest ih =>
    obtain ⟨i', o'⟩ := x
    by_cases hi : i' = i
    · subst hi
      simp [toSet, toGet, Ne.symm hj]
    · by_cases hij : i' = j
      · simp [toSet, toGet, hi, hij, hj]
      · simp [toSet, toGet, hi, hij, ih]

theorem toErase_append {m : List (ℤ × Order)} {i : ℤ} (o : Order) (h : toGet m i = none) :
    toErase (m ++ [(i, o)]) i = m := by
  induction m with
  | nil => simp [toErase]
  | cons x rest ih =>
    obtain ⟨i', o'⟩ := x
    by_cases hi : i' = i
    · subst hi; simp [toGet] at h
    · simp [toGet, hi] at h
      simp [toErase, hi, ih h]

theorem toErase_sublist (m : List (ℤ × Order)) (i : ℤ) : (toErase m i).Sublist m := by
  induction m with
  | nil => simp [toErase]
  | cons x rest ih =>
    obtain ⟨i', o'⟩ := x
    by_cases hi : i' = i
    · simp [toErase, hi]
    · simp only [toErase, if_neg hi]
      exact List.Sublist.cons₂ (i', o') ih

theorem toGet_toErase_ne (m : List (ℤ × Order)) {i j : ℤ} (hji : j ≠ i) :
    toGet (toErase m i) j = toGet m j := by
  induction m with
  | nil => simp [toErase]
  | cons x rest ih =>
    obtain ⟨i', o'⟩ := x
    by_cases hi : i' = i
    · subst hi
      simp [toErase, toGet, Ne.symm hji]
    · by_cases hj : i' = j
      · simp [toErase, hi, toGet, hj, hji]
      · simp [toErase, hi, toGet, hj, ih]

theorem toGet_none_of_not_mem_keys {m : List (ℤ × Order)} {i : ℤ}
    (h : i ∉ m.map Prod.fst) : toGet m i = none := by
  induction m with
  | nil => simp [toGet]
  | cons x rest ih =>
    obtain ⟨i', o'⟩ := x
    simp only [List.map_cons, List.mem_cons, not_or] at h
    have hne : i' ≠ i := fun he => h.1 he.symm
    simp [toGet, hne, ih h.2]

theorem mem_keys_of_toGet {m : List (ℤ × Order)} {i : ℤ} {o : Order}
    (h : toGet m i = some o) : i ∈ m.map Prod.fst := by
  have := toGet_mem h
  exact List.mem_map.2 ⟨(i, o), this, rfl⟩

theorem toGet_toErase_self {m : List (ℤ × Order)} {i : ℤ}
    (hnd : (m.map Prod.fst).Nodup) : toGet (toErase m i) i = none := by
  induction m with
  | nil => simp [toErase, toGet]
  | cons x rest ih =>
    obtain ⟨i', o'⟩ := x
    rw [List.map_cons, List.nodup_cons] at hnd
    by_cases hi : i' = i
    · subst hi
      simp only [toErase, if_pos rfl]
      exact toGet_none_of_not_mem_keys hnd.1
    · simp [toErase, hi, toGet, ih hnd.2]

theorem keys_toSetQty (m : List (ℤ × Order)) (i : ℤ) (v : ℤ) :
    (toSetQty m i v).map Prod.fst = m.map Prod.fst := by
  induction m with
  | nil => simp [toSetQty]
  | cons x rest ih =>
    obtain ⟨i', o'⟩ := x
    by_cases hi : i' = i
    · simp [toSetQty, hi]
    · simp [toSetQty, hi, ih]

theorem toGet_toSetQty_self (m : List (ℤ × Order)) (i : ℤ) (v : ℤ) :
    toGet (toSetQty m i v) i = (toGet m i).map (fun o => { o with quantity := v }) := by
  induction m with
  | nil => simp [toSetQty, toGet]
  | cons x rest ih =>
    obtain ⟨i', o'⟩ := x
    by_cases hi : i' = i
    · simp [toSetQty, hi, toGet]
    · simp [toSetQty, hi, toGet, ih]

theorem toGet_toSetQty_ne (m : List (ℤ × Order)) {i j : ℤ} (v : ℤ) (hji : j ≠ i) :
    toGet (toSetQty m i v) j = toGet m j := by
  induction m with
  | nil => simp [toSetQty]
  | cons x rest ih =>
    obtain ⟨i', o'⟩ := x
    by_cases hi : i' = i
    · subst hi
      simp [toSetQty, toGet, Ne.symm hji]
    · by_cases hij : i' = j
      · simp [toSetQty, hi, toGet, hij, hji]
      · simp [toSetQty, hi, toGet, hij, ih]

theorem mem_toSetQty {m : List (ℤ × Order)} {i : ℤ} {v : ℤ} {p : ℤ × Order}
    (h : p ∈ toSetQty m i v) :
    p ∈ m ∨ ∃ o, (i, o) ∈ m ∧ p = (i, { o with quantity := v }) := by
  induction m with
  | nil => simp [toSetQty] at h
  | cons x rest ih =>
    obtain ⟨i', o'⟩ := x
    by_cases hi : i' = i
    · subst hi
      simp [toSetQty] at h
      rcases h with h | h
      · exact Or.inr ⟨o', by simp, h⟩
      · exact Or.inl (List.mem_cons_of_mem _ h)
    · simp [toSetQty, hi] at h
      rcases h with h | h
      · exact Or.inl (by simp [h])
      · rcases ih h with h1 | ⟨o, ho, hp⟩
        · exact Or.inl (List.mem_cons_of_mem _ h1)
        · exact Or.inr ⟨o, List.mem_cons_of_mem _ ho, hp⟩

theorem toGet_of_mem_nodup {m : List (ℤ × Order)} {i : ℤ} {o : Order}
    (hnd : (m.map Prod.fst).Nodup) (h : (i, o) ∈ m) : toGet m i = some o := by
  induction m with
  | nil => simp at h
  | cons x rest ih =>
    obtain ⟨i', o'⟩ := x
    rw [List.map_cons, List.nodup_cons] at hnd
    rcases List.mem_cons.1 h with h1 | h1
    · cases h1
      simp [toGet]
    · have hne : i' ≠ i := by
        rintro rfl
        exact hnd.1 (List.mem_map.2 ⟨(i', o), h1, rfl⟩)
      simp [toGet, hne, ih hnd.2 h1]

/-! ### Lemmas about the stable insertion sorts -/

theorem insertAsc_perm {α : Type} (key : α → ℚ) (x : α) (l : List α) :
    (insertAsc key x l).Perm (x :: l) := by
  induction l with
  | nil => simp [insertAsc]
  | cons y ys ih =>
    by_cases h : key x ≤ key y
    · simp [insertAsc, h]
    · simp only [insertAsc, if_neg h]
      exact ((ih.cons y).trans (List.Perm.swap x y ys)).symm.symm

theorem sortAsc_perm {α : Type} (key : α → ℚ) (l : List α) :
    (sortAsc key l).Perm l := by
  induction l with
  | nil => simp [sortAsc]
  | cons x xs ih =>
    exact (insertAsc_perm key x (sortAsc key xs)).trans (ih.cons x)

theorem insertDesc_perm {α : Type} (key : α → ℚ) (x : α) (l : List α) :
    (insertDesc key x l).Perm (x :: l) := by
  induction l with
  | nil => simp [insertDesc]
  | cons y ys ih =>
    by_cases h : key y ≤ key x
    · simp [insertDesc, h]
    · simp only [insertDesc, if_neg h]
      exact ((ih.cons y).trans (List.Perm.swap x y ys)).symm.symm

theorem sortDesc_perm {α : Type} (key : α → ℚ) (l : List α) :
    (sortDesc key l).Perm l := by
  induction l with
  | nil => simp [sortDesc]
  | cons x xs ih =>
    exact (insertDesc_perm key x (sortDesc key xs)).trans (ih.cons x)

theorem insertAsc_pairwise {α : Type} {key : α → ℚ} {x : α} {l : List α}
    (h : l.Pairwise (fun a b => key a ≤ key b)) :
    (insertAsc key x l).Pairwise (fun a b => key a ≤ key b) := by
  induction l with
  | nil => simp [insertAsc]
  | cons y ys ih =>
    rw [List.pairwise_cons] at h
    by_cases hx : key x ≤ key y
    · rw [insertAsc, if_pos hx, List.pairwise_cons]
      refine ⟨?_, List.pairwise_cons.2 h⟩
      intro z hz
      rcases List.mem_cons.1 hz with rfl | hz
      · exact hx
      · exact le_trans hx (h.1 z hz)
    · rw [insertAsc, if_neg hx, List.pairwise_cons]
      refine ⟨?_, ih h.2⟩
      intro z hz
      rcases List.mem_cons.1 ((insertAsc_perm key x ys).mem_iff.1 hz) with rfl | hz
      · exact le_of_not_le hx
      · exact h.1 z hz

theorem sortAsc_pairwise {α : Type} (key : α → ℚ) (l : List α) :
    (sortAsc key l).Pairwise (fun a b => key a ≤ key b) := by
  induction l with
  | nil => simp [sortAsc]
  | cons x xs ih => exact insertAsc_pairwise ih

theorem insertDesc_pairwise {α : Type} {key : α → ℚ} {x : α} {l : List α}
    (h : l.Pairwise (fun a b => key b ≤ key a)) :
    (insertDesc key x l).Pairwise (fun a b => key b ≤ key a) := by
  induction l with
  | nil => simp [insertDesc]
  | cons y ys ih =>
    rw [List.pairwise_cons] at h
    by_cases hx : key y ≤ key x
    · rw [insertDesc, if_pos hx, List.pairwise_cons]
      refine ⟨?_, List.pairwise_cons.2 h⟩
      intro z hz
      rcases List.mem_cons.1 hz with rfl | hz
      · exact hx
      · exact le_trans (h.1 z hz) hx
    · rw [insertDesc, if_neg hx, List.pairwise_cons]
      refine ⟨?_, ih h.2⟩
      intro z hz
      rcases List.mem_cons.1 ((insertDesc_perm key x ys).mem_iff.1 hz) with rfl | hz
      · exact le_of_not_le hx
      · exact h.1 z hz

theorem sortDesc_pairwise {α : Type} (key : α → ℚ) (l : List α) :
    (sortDesc key l).Pairwise (fun a b => key b ≤ key a) := by
  induction l with
  | nil => simp [sortDesc]
  | cons x xs ih => exact insertDesc_pairwise ih

theorem mem_of_getLast?' {α : Type} {l : List α} {m : α} (h : l.getLast? = some m) :
    m ∈ l := by
  induction l with
  | nil => simp at h
  | cons x xs ih =>
    cases xs with
    | nil => simp at h; simp [h]
    | cons y ys =>
      rw [List.getLast?_cons_cons] at h
      exact List.mem_cons_of_mem _ (ih h)

theorem pairwise_getLast {α : Type} {r : α → α → Prop} {l : List α}
    (hp : l.Pairwise r) {m : α} (hm : l.getLast? = some m) :
    ∀ x ∈ l, x = m ∨ r x m := by
  induction l with
  | nil => simp at hm
  | cons x xs ih =>
    rw [List.pairwise_cons] at hp
    cases xs with
    | nil =>
      simp at hm
      intro z hz
      rcases List.mem_cons.1 hz with rfl | hz
      · exact Or.inl hm
      · simp at hz
    | cons y ys =>
      rw [List.getLast?_cons_cons] at hm
      intro z hz
      rcases List.mem_cons.1 hz with rfl | hz
      · exact Or.inr (hp.1 m (mem_of_getLast?' hm))
      · exact ih hp.2 hm z hz

theorem sortAsc_eq_nil {α : Type} (key : α → ℚ) (l : List α) :
    sortAsc key l = [] ↔ l = [] := by
  constructor
  · intro h
    have := (sortAsc_perm key l).length_eq
    rw [h] at this
    exact List.eq_nil_of_length_eq_zero this.symm
  · rintro rfl; simp [sortAsc]

theorem sortDesc_eq_nil {α : Type} (key : α → ℚ) (l : List α) :
    sortDesc key l = [] ↔ l = [] := by
  constructor
  · intro h
    have := (sortDesc_perm key l).length_eq
    rw [h] at this
    exact List.eq_nil_of_length_eq_zero this.symm
  · rintro rfl; simp [sortDesc]

/-! ### Balance bookkeeping sums -/

/-- The money an order holds when it is a live test bid (spec §8.3). -/
def bidHold (o : Order) : ℚ :=
  if o.side = "B" then o.price * (o.quantity : ℚ) else 0

/-- The sum the spec's invariant 3 prescribes for `held_money` over the
live test bids. -/
def held_money_target (m : List (ℤ × Order)) : ℚ :=
  (m.map fun p => bidHold p.2).sum

/-- The money a pending delete confirmation will release: the price times
quantity of every side-"B" "D" message sitting in the bist→net queue. -/
def pending_delete_sum (q : List Order) : ℚ :=
  (q.map fun o => if o.msg_type = "D" ∧ o.side = "B" then o.price * (o.quantity : ℚ) else 0).sum

theorem held_money_target_append (l l2 : List (ℤ × Order)) :
    held_money_target (l ++ l2) = held_money_target l + held_money_target l2 := by
  simp [held_money_target]

theorem held_money_target_toErase {l : List (ℤ × Order)} {i : ℤ} {t : Order}
    (h : toGet l i = some t) :
    held_money_target (toErase l i) = held_money_target l - bidHold t := by
  induction l with
  | nil => simp [toGet] at h
  | cons x rest ih =>
    obtain ⟨i', o'⟩ := x
    by_cases hi : i' = i
    · subst hi
      simp [toGet] at h
      subst h
      simp [toErase, held_money_target]
    · simp [toGet, hi] at h
      simp [toErase, hi, held_money_target] at ih ⊢
      rw [ih h]
      ring

theorem held_money_target_toSetQty {l : List (ℤ × Order)} {i : ℤ} {t : Order} (v : ℤ)
    (h : toGet l i = some t) :
    held_money_target (toSetQty l i v)
      = held_money_target l - bidHold t + bidHold { t with quantity := v } := by
  induction l with
  | nil => simp [toGet] at h
  | cons x rest ih =>
    obtain ⟨i', o'⟩ := x
    by_cases hi : i' = i
    · subst hi
      simp [toGet] at h
      subst h
      simp [toSetQty, held_money_target]
      ring
    · simp [toGet, hi] at h
      simp [toSetQty, hi, held_money_target] at ih ⊢
      rw [ih h]
      ring

theorem pending_delete_sum_append (q q2 : List Order) :
    pending_delete_sum (q ++ q2) = pending_delete_sum q + pending_delete_sum q2 := by
  simp [pending_delete_sum]

theorem pending_delete_sum_execs {q : List Order}
    (h : ∀ m ∈ q, m.msg_type = "E") : pending_delete_sum q = 0 := by
  induction q with
  | nil => simp [pending_delete_sum]
  | cons x rest ih =>
    have hx := h x (by simp)
    have : pending_delete_sum rest = 0 := ih fun m hm => h m (List.mem_cons_of_mem _ hm)
    simp [pending_delete_sum, hx] at this ⊢
    exact this

/-! ### Properties of the matching-engine sweep -/

theorem bidLoop_spec (limit : ℚ) (mk : ℚ → ℤ → Order) :
    ∀ (prices : List (ℚ × ℤ)) (bq : ℤ), 0 ≤ bq →
    (∀ lv ∈ prices, (0:ℚ) ≤ lv.1 ∧ (0:ℤ) ≤ lv.2) →
    (∀ m ∈ (bidLoop limit mk prices bq).1,
        ∃ px e, m = mk px e ∧ 0 ≤ px ∧ px ≤ limit ∧ 0 ≤ e)
    ∧ (∀ lv ∈ (bidLoop limit mk prices bq).2.1, (0:ℚ) ≤ lv.1 ∧ (0:ℤ) ≤ lv.2)
    ∧ 0 ≤ (bidLoop limit mk prices bq).2.2.1 := by
  intro prices
  induction prices with
  | nil =>
    intro bq hbq hp
    simp [bidLoop, hbq]
  | cons lv rest ih =>
    intro bq hbq hp
    obtain ⟨px, qty⟩ := lv
    have hpx : (0:ℚ) ≤ px := (hp (px, qty) (by simp)).1
    have hqty : (0:ℤ) ≤ qty := (hp (px, qty) (by simp)).2
    have hrest : ∀ lv ∈ rest, (0:ℚ) ≤ lv.1 ∧ (0:ℤ) ≤ lv.2 :=
      fun lv hlv => hp lv (List.mem_cons_of_mem _ hlv)
    by_cases h0 : bq ≤ 0
    · refine ⟨?_, ?_, ?_⟩ <;> simp only [bidLoop, if_pos h0]
      · intro m hm
        simp at hm
      · exact hp
      · exact hbq
    · by_cases hstop : limit < px
      · refine ⟨?_, ?_, ?_⟩ <;> simp only [bidLoop, if_neg h0, if_pos hstop]
        · intro m hm
          simp at hm
        · intro lv hlv
          by_cases hq : 0 < qty
          · rw [if_pos hq] at hlv
            rcases List.mem_cons.1 hlv with rfl | hlv
            · exact ⟨hpx, hqty⟩
            · exact hrest lv hlv
          · rw [if_neg hq] at hlv
            exact hrest lv hlv
        · exact hbq
      · have hle : px ≤ limit := le_of_not_lt hstop
        have he0 : (0:ℤ) ≤ min bq qty := le_min (le_of_not_le h0) hqty
        have heq : min bq qty ≤ qty := min_le_right _ _
        have heb : min bq qty ≤ bq := min_le_left _ _
        by_cases hbid0 : bq - min bq qty = 0
        · refine ⟨?_, ?_, ?_⟩ <;> simp only [bidLoop, if_neg h0, if_neg hstop, if_pos hbid0]
          · intro m hm
            simp at hm
            exact ⟨px, min bq qty, hm, hpx, hle, he0⟩
          · intro lv hlv
            by_cases hq : 0 < qty - min bq qty
            · simp [hq] at hlv
              rcases hlv with rfl | hlv
              · exact ⟨hpx, by omega⟩
              · exact hrest lv hlv
            · simp [hq] at hlv
              exact hrest lv hlv
          · simp
        · have hbid' : 0 ≤ bq - min bq qty := by omega
          obtain ⟨ih1, ih2, ih3⟩ := ih (bq - min bq qty) hbid' hrest
          refine ⟨?_, ?_, ?_⟩ <;> simp only [bidLoop, if_neg h0, if_neg hstop, if_neg hbid0]
          · intro m hm
            simp at hm
            rcases hm with rfl | hm
            · exact ⟨px, min bq qty, rfl, hpx, hle, he0⟩
            · exact ih1 m hm
          · exact ih2
          · exact ih3

/-- Every message emitted by `_run_single_bid` is a synthetic "E", side
"B", at a non-negative price not exceeding the bid's limit, with a
non-negative quantity, carrying the bid's order id; and the returned
working price list stays well formed. -/
theorem run_single_bid_spec (ts lat : ℚ) (bid : Order) (prices : List (ℚ × ℤ))
    (hbq : 0 ≤ bid.quantity)
    (hp : ∀ lv ∈ prices, (0:ℚ) ≤ lv.1 ∧ (0:ℤ) ≤ lv.2) :
    (∀ m ∈ (run_single_bid ts lat bid prices).1,
        m.msg_type = "E" ∧ m.side = "B" ∧ 0 ≤ m.price ∧ m.price ≤ bid.price ∧
        0 ≤ m.quantity ∧ m.order_id = bid.order_id)
    ∧ (∀ lv ∈ (run_single_bid ts lat bid prices).2.1, (0:ℚ) ≤ lv.1 ∧ (0:ℤ) ≤ lv.2) := by
  have hrev : ∀ lv ∈ prices.reverse, (0:ℚ) ≤ lv.1 ∧ (0:ℤ) ≤ lv.2 := by
    intro lv hlv
    exact hp lv (List.mem_reverse.1 hlv)
  obtain ⟨h1, h2, _⟩ := bidLoop_spec bid.price _ prices.reverse bid.quantity hbq hrev
  constructor
  · intro m hm
    obtain ⟨px, e, rfl, hpx, hle, he⟩ := h1 m hm
    exact ⟨rfl, rfl, hpx, hle, he, rfl⟩
  · intro lv hlv
    exact h2 lv (List.mem_reverse.1 hlv)

/-- Messages emitted by the `_run_bids` loop: each is a well-formed
synthetic execute for one of the collected bids. -/
theorem run_bids_loop_emits (ts lat : ℚ) :
    ∀ (bids : List Order) (prices : List (ℚ × ℤ)),
    (∀ b ∈ bids, 0 ≤ b.quantity) →
    (∀ lv ∈ prices, (0:ℚ) ≤ lv.1 ∧ (0:ℤ) ≤ lv.2) →
    ∀ m ∈ (run_bids_loop ts lat bids prices).1,
      ∃ b ∈ bids, m.msg_type = "E" ∧ m.side = "B" ∧ 0 ≤ m.price ∧ m.price ≤ b.price ∧
        0 ≤ m.quantity ∧ m.order_id = b.order_id := by
  intro bids
  induction bids with
  | nil =>
    intro prices _ _ m hm
    simp [run_bids_loop] at hm
  | cons bid rest ih =>
    intro prices hbids hp m hm
    by_cases hps : prices = []
    · simp [run_bids_loop, hps] at hm
    · have hb0 : 0 ≤ bid.quantity := hbids bid (by simp)
      obtain ⟨h1, h2⟩ := run_single_bid_spec ts lat bid prices hb0 hp
      simp only [run_bids_loop, if_neg hps] at hm
      by_cases hstop : (run_single_bid ts lat bid prices).2.2.1
      · simp only [if_pos hstop] at hm
        obtain ⟨he, hside, hpx, hle, hq, hid⟩ := h1 m hm
        exact ⟨bid, by simp, he, hside, hpx, hle, hq, hid⟩
      · simp only [if_neg hstop] at hm
        rcases List.mem_append.1 hm with hm | hm
        · obtain ⟨he, hside, hpx, hle, hq, hid⟩ := h1 m hm
          exact ⟨bid, by simp, he, hside, hpx, hle, hq, hid⟩
        · obtain ⟨b, hb, hrest⟩ :=
            ih (run_single_bid ts lat bid prices).2.1
              (fun b hb => hbids b (List.mem_cons_of_mem _ hb)) h2 m hm
          exact ⟨b, List.mem_cons_of_mem _ hb, hrest⟩

/-- Orders collected by `_run_bids` are live side-"B" entries of
`test_orders`. -/
theorem mem_collect_bids {s : BState} {bid : Order} (h : bid ∈ collect_bids s) :
    ∃ i, (i, bid) ∈ s.test_orders ∧ bid.side = "B" ∧ i ∉ s.finished_orders := by
  unfold collect_bids at h
  obtain ⟨p, hp, hq⟩ := List.mem_map.1 h
  obtain ⟨i, o⟩ := p
  cases hq
  have hp2 := (sortDesc_perm (fun p : ℤ × Order => p.2.price) _).mem_iff.1 hp
  obtain ⟨hmem, hdec⟩ := List.mem_filter.1 hp2
  have hprop := of_decide_eq_true hdec
  exact ⟨i, hmem, hprop.1, hprop.2⟩

/-- With valid sides ("B"/"S"), the ask sweep collects nothing: the
source filters on side "A". -/
theorem collect_asks_nil {s : BState}
    (h : ∀ p ∈ s.test_orders, p.2.side = "B" ∨ p.2.side = "S") :
    collect_asks s = [] := by
  unfold collect_asks
  have hf : s.test_orders.filter
      (fun p => decide (p.2.side = "A" ∧ p.1 ∉ s.finished_orders)) = [] := by
    rw [List.filter_eq_nil_iff]
    intro p hp
    rcases h p hp with h1 | h1 <;> simp [h1]
  rw [hf]
  simp [sortAsc]

/-- With valid sides, `_run_asks` does nothing at all. -/
theorem run_asks_id {s : BState}
    (h : ∀ p ∈ s.test_orders, p.2.side = "B" ∨ p.2.side = "S") :
    run_asks s = s := by
  unfold run_asks
  rw [collect_asks_nil h]
  simp [run_asks_loop]

/-! ### The accountant invariant -/

/-- Well-formedness of a message pending in the bist→net queue: it is
either a delete confirmation with non-negative figures, or a synthetic
buy-side execute whose price does not exceed the limit price of the
resting test order it refers to (when that order is still resting). -/
def wfMsg (tos : List (ℤ × Order)) (m : Order) : Prop :=
  (m.msg_type = "D" ∧ 0 ≤ m.price ∧ 0 ≤ m.quantity)
  ∨ (m.msg_type = "E" ∧ m.side = "B" ∧ 0 ≤ m.price ∧ 0 ≤ m.quantity ∧
     ∀ t, toGet tos m.order_id = some t → m.price ≤ t.price ∧ t.side = "B")

/-- Inductive invariant of the scheduler: the money lower bound, the
held-money ledger equation, and the structural facts about
`test_orders`, the bist→net queue and the book that keep them stable. -/
def Inv (c : ℚ) (s : BState) : Prop :=
  -(c * (s.num_orders : ℚ)) ≤ s.money
  ∧ s.held_money = held_money_target s.test_orders + pending_delete_sum s.bist2network
  ∧ (∀ p ∈ s.test_orders, wfOrder p.2)
  ∧ (∀ p ∈ s.test_orders, p.1 = p.2.order_id)
  ∧ (s.test_orders.map Prod.fst).Nodup
  ∧ (∀ m ∈ s.bist2network, wfMsg s.test_orders m)
  ∧ wfBook s.book

theorem not_mem_keys_of_toGet_none {m : List (ℤ × Order)} {i : ℤ}
    (h : toGet m i = none) : i ∉ m.map Prod.fst := by
  induction m with
  | nil => simp
  | cons x rest ih =>
    obtain ⟨j, o'⟩ := x
    by_cases hj : j = i
    · subst hj; simp [toGet] at h
    · simp only [toGet, if_neg hj] at h
      simp only [List.map_cons, List.mem_cons, not_or]
      exact ⟨fun he => hj he.symm, ih h⟩

theorem update_price_table_prices (b : Book) :
    (Book.update_price_table b).bid_prices = b.bid_prices
    ∧ (Book.update_price_table b).ask_prices = b.ask_prices := by
  unfold Book.update_price_table
  cases (Book.sorted_bids b).getLast? <;> cases (Book.sorted_asks b).getLast? <;> simp

theorem inv_fee {c : ℚ} {s : BState} (h : Inv c s) (k : ℕ) :
    Inv c { s with money := s.money - c * k, num_orders := s.num_orders + k } := by
  obtain ⟨h1, h2, h3, h4, h5, h6, h7⟩ := h
  refine ⟨?_, h2, h3, h4, h5, h6, h7⟩
  push_cast
  nlinarith [h1]

theorem inv_hist {c : ℚ} {s : BState} (h : Inv c s) {b' : Book} (hb : wfBook b') :
    Inv c { s with book := b' } := by
  obtain ⟨h1, h2, h3, h4, h5, h6, _⟩ := h
  exact ⟨h1, h2, h3, h4, h5, h6, hb⟩

theorem inv_price {c : ℚ} {s : BState} (h : Inv c s) :
    Inv c { s with book := Book.update_price_table s.book } := by
  obtain ⟨h1, h2, h3, h4, h5, h6, h7⟩ := h
  refine ⟨h1, h2, h3, h4, h5, h6, ?_⟩
  obtain ⟨e1, e2⟩ := update_price_table_prices s.book
  exact ⟨e1 ▸ h7.1, e2 ▸ h7.2⟩

theorem inv_sweep {c : ℚ} {s : BState} (h : Inv c s) :
    Inv c (run_market_maker s) := by
  obtain ⟨h1, h2, h3, h4, h5, h6, h7⟩ := h
  have hsides : ∀ p ∈ (run_bids s).test_orders, p.2.side = "B" ∨ p.2.side = "S" := by
    intro p hp
    exact (h3 p hp).1
  have hmm : run_market_maker s = run_bids s := by
    unfold run_market_maker
    exact run_asks_id hsides
  rw [hmm]
  have hbids : ∀ b ∈ collect_bids s, 0 ≤ b.quantity := by
    intro b hb
    obtain ⟨i, hmem, _, _⟩ := mem_collect_bids hb
    exact (h3 (i, b) hmem).2.2
  have hprices : ∀ lv ∈ s.book.sorted_asks, (0:ℚ) ≤ lv.1 ∧ (0:ℤ) ≤ lv.2 := by
    intro lv hlv
    exact h7.2 lv ((sortDesc_perm Prod.fst _).mem_iff.1 hlv)
  have hem := run_bids_loop_emits s.last_timestamp s.latency (collect_bids s)
    s.book.sorted_asks hbids hprices
  have hallE : ∀ m ∈ (run_bids_loop s.last_timestamp s.latency (collect_bids s)
      s.book.sorted_asks).1, m.msg_type = "E" := by
    intro m hm
    obtain ⟨b, _, he, _⟩ := hem m hm
    exact he
  refine ⟨h1, ?_, h3, h4, h5, ?_, h7⟩
  · show s.held_money = held_money_target s.test_orders + pending_delete_sum (s.bist2network ++ _)
    rw [pending_delete_sum_append, pending_delete_sum_execs hallE, add_zero]
    exact h2
  · intro m hm
    rcases List.mem_append.1 hm with hm | hm
    · exact h6 m hm
    · obtain ⟨b, hb, he, hside, hpx, hle, hq, hid⟩ := hem m hm
      obtain ⟨i, hmem, hbB, _⟩ := mem_collect_bids hb
      have hik : i = b.order_id := h4 (i, b) hmem
      have hget : toGet s.test_orders b.order_id = some b :=
        toGet_of_mem_nodup h5 (hik ▸ hmem)
      refine Or.inr ⟨he, hside, hpx, hq, ?_⟩
      intro t ht
      have hts : (run_bids s).test_orders = s.test_orders := rfl
      rw [hts, hid, hget] at ht
      cases ht
      exact ⟨hle, hbB⟩

theorem inv_add {c : ℚ} {s : BState} (hc : 0 ≤ c) (h : Inv c s) {o : Order}
    (hwf : wfOrder o) (hfresh : freshId s o.order_id) :
    Inv c (execute_add s o) := by
  obtain ⟨h1, h2, h3, h4, h5, h6, h7⟩ := h
  obtain ⟨hget, hfin, hqid⟩ := hfresh
  have habs := toSet_absent o hget
  have hnodup : ((s.test_orders ++ [(o.order_id, o)]).map Prod.fst).Nodup := by
    rw [List.map_append, List.nodup_append]
    refine ⟨h5, by simp, ?_⟩
    intro a ha hb
    simp at hb
    subst hb
    exact not_mem_keys_of_toGet_none hget ha
  have hto : ∀ p ∈ s.test_orders ++ [(o.order_id, o)], wfOrder p.2 := by
    intro p hp
    rcases List.mem_append.1 hp with hp | hp
    · exact h3 p hp
    · simp at hp
      subst hp
      exact hwf
  have hkm : ∀ p ∈ s.test_orders ++ [(o.order_id, o)], p.1 = p.2.order_id := by
    intro p hp
    rcases List.mem_append.1 hp with hp | hp
    · exact h4 p hp
    · simp at hp
      subst hp
      rfl
  have hmsg : ∀ m ∈ s.bist2network, wfMsg (toSet s.test_orders o.order_id o) m := by
    intro m hm
    rcases h6 m hm with hD | hEE
    · exact Or.inl hD
    · refine Or.inr ⟨hEE.1, hEE.2.1, hEE.2.2.1, hEE.2.2.2.1, ?_⟩
      intro t ht
      rw [toGet_toSet_ne _ _ _ (hqid m hm)] at ht
      exact hEE.2.2.2.2 t ht
  unfold execute_add
  by_cases hside : o.side = "B"
  · rw [if_pos hside]
    by_cases hmoney : s.money < o.price * (o.quantity : ℚ)
    · rw [if_pos hmoney]
      exact ⟨h1, h2, h3, h4, h5, h6, h7⟩
    · rw [if_neg hmoney]
      refine ⟨?_, ?_, habs ▸ hto, habs ▸ hkm, habs ▸ hnodup, hmsg, h7⟩
      · show -(c * (s.num_orders : ℚ)) ≤ s.money - o.price * (o.quantity : ℚ)
        have hcn : 0 ≤ c * (s.num_orders : ℚ) := mul_nonneg hc (by positivity)
        linarith [le_of_not_lt hmoney]
      · show s.held_money + o.price * (o.quantity : ℚ)
            = held_money_target (toSet s.test_orders o.order_id o)
              + pending_delete_sum s.bist2network
        rw [habs, held_money_target_append]
        have : held_money_target [(o.order_id, o)] = o.price * (o.quantity : ℚ) := by
          simp [held_money_target, bidHold, hside]
        rw [this]
        linarith [h2]
  · rw [if_neg hside]
    by_cases hstock : s.stock < o.quantity
    · rw [if_pos hstock]
      exact ⟨h1, h2, h3, h4, h5, h6, h7⟩
    · rw [if_neg hstock]
      refine ⟨h1, ?_, habs ▸ hto, habs ▸ hkm, habs ▸ hnodup, hmsg, h7⟩
      show s.held_money = held_money_target (toSet s.test_orders o.order_id o)
          + pending_delete_sum s.bist2network
      rw [habs, held_money_target_append]
      have : held_money_target [(o.order_id, o)] = 0 := by
        simp [held_money_target, bidHold, hside]
      rw [this]
      linarith [h2]

theorem inv_cancel {c : ℚ} {s : BState} (h : Inv c s) {o : Order}
    (hside : ∀ t, toGet s.test_orders o.order_id = some t → o.side = t.side) :
    Inv c (execute_cancel s o) := by
  obtain ⟨h1, h2, h3, h4, h5, h6, h7⟩ := h
  unfold execute_cancel
  cases hget : toGet s.test_orders o.order_id with
  | none => exact ⟨h1, h2, h3, h4, h5, h6, h7⟩
  | some cdl =>
    have hwfc := h3 _ (toGet_mem hget)
    have hsd := hside cdl hget
    refine ⟨h1, ?_, ?_, ?_, ?_, ?_, h7⟩
    · show s.held_money
          = held_money_target (toErase s.test_orders o.order_id)
            + pending_delete_sum (s.bist2network ++
                [⟨o.bist_time + s.latency, o.bist_time, "D", o.asset_name, o.side, cdl.price, cdl.quantity, o.order_id⟩])
      rw [held_money_target_toErase hget, pending_delete_sum_append]
      have hone : pending_delete_sum
          [(⟨o.bist_time + s.latency, o.bist_time, "D", o.asset_name, o.side, cdl.price, cdl.quantity, o.order_id⟩ : Order)]
          = bidHold cdl := by
        by_cases hb : cdl.side = "B"
        · simp [pending_delete_sum, bidHold, hsd, hb]
        · simp [pending_delete_sum, bidHold, hsd, hb]
      rw [hone]
      linarith [h2]
    · intro p hp
      exact h3 p ((toErase_sublist _ _).subset hp)
    · intro p hp
      exact h4 p ((toErase_sublist _ _).subset hp)
    · exact List.Nodup.sublist ((toErase_sublist s.test_orders o.order_id).map Prod.fst) h5
    · intro m hm
      rcases List.mem_append.1 hm with hm | hm
      · rcases h6 m hm with hD | hEE
        · exact Or.inl hD
        · refine Or.inr ⟨hEE.1, hEE.2.1, hEE.2.2.1, hEE.2.2.2.1, ?_⟩
          intro t ht
          by_cases hoe : m.order_id = o.order_id
          · rw [hoe, toGet_toErase_self h5] at ht
            simp at ht
          · rw [toGet_toErase_ne _ hoe] at ht
            exact hEE.2.2.2.2 t ht
      · simp at hm
        subst hm
        exact Or.inl ⟨rfl, hwfc.2.1, hwfc.2.2⟩

theorem inv_delD {c : ℚ} {s : BState} (h : Inv c s) {d : Order} {rest : List Order}
    (hq : s.bist2network = d :: rest) (hD : d.msg_type = "D") :
    Inv c (execute_delete { s with bist2network := rest } d) := by
  obtain ⟨h1, h2, h3, h4, h5, h6, h7⟩ := h
  have hw := h6 d (by rw [hq]; simp)
  have hDw : 0 ≤ d.price ∧ 0 ≤ d.quantity := by
    rcases hw with hD' | hEE
    · exact ⟨hD'.2.1, hD'.2.2⟩
    · exact absurd (hD.symm.trans hEE.1) (by decide)
  have hmsg : ∀ m ∈ rest, wfMsg s.test_orders m := fun m hm =>
    h6 m (by rw [hq]; exact List.mem_cons_of_mem _ hm)
  have hpend : pending_delete_sum s.bist2network
      = (if d.side = "B" then d.price * (d.quantity : ℚ) else 0) + pending_delete_sum rest := by
    rw [hq]
    simp [pending_delete_sum, hD]
  unfold execute_delete
  by_cases hb : d.side = "B"
  · rw [if_pos hb]
    refine ⟨?_, ?_, h3, h4, h5, hmsg, h7⟩
    · show -(c * (s.num_orders : ℚ)) ≤ s.money + d.price * (d.quantity : ℚ)
      have : 0 ≤ d.price * (d.quantity : ℚ) :=
        mul_nonneg hDw.1 (by exact_mod_cast hDw.2)
      linarith [h1]
    · show s.held_money - d.price * (d.quantity : ℚ)
          = held_money_target s.test_orders + pending_delete_sum rest
      rw [hpend, if_pos hb] at h2
      linarith [h2]
  · rw [if_neg hb]
    refine ⟨h1, ?_, h3, h4, h5, hmsg, h7⟩
    show s.held_money = held_money_target s.test_orders + pending_delete_sum rest
    rw [hpend, if_neg hb] at h2
    linarith [h2]

theorem inv_delE {c : ℚ} {s : BState} (h : Inv c s) {e : Order} {rest : List Order}
    {s' : BState} (hq : s.bist2network = e :: rest) (hE : e.msg_type = "E")
    (hex : execute_execute { s with bist2network := rest } e = some s') :
    Inv c s' := by
  obtain ⟨h1, h2, h3, h4, h5, h6, h7⟩ := h
  have hw := h6 e (by rw [hq]; simp)
  have hEw : e.side = "B" ∧ 0 ≤ e.price ∧ 0 ≤ e.quantity ∧
      ∀ t, toGet s.test_orders e.order_id = some t → e.price ≤ t.price ∧ t.side = "B" := by
    rcases hw with hD' | hEE
    · exact absurd (hE.symm.trans hD'.1) (by decide)
    · exact ⟨hEE.2.1, hEE.2.2.1, hEE.2.2.2.1, hEE.2.2.2.2⟩
  have hmsg0 : ∀ m ∈ rest, wfMsg s.test_orders m := fun m hm =>
    h6 m (by rw [hq]; exact List.mem_cons_of_mem _ hm)
  have hpend : pending_delete_sum s.bist2network = pending_delete_sum rest := by
    rw [hq]
    simp [pending_delete_sum, hE]
  unfold execute_execute at hex
  split at hex
  · exact absurd hex (by simp)
  · rename_i ex hget0
    have hget : toGet s.test_orders e.order_id = some ex := hget0
    obtain ⟨hle, hexB⟩ := hEw.2.2.2 ex hget
    have hwex := h3 _ (toGet_mem hget)
    have hq0 : (0:ℤ) ≤ min ex.quantity e.quantity := le_min hwex.2.2 hEw.2.2.1
    have hqle : min ex.quantity e.quantity ≤ ex.quantity := min_le_left _ _
    have hrefund : 0 ≤ (ex.price - e.price) * ((min ex.quantity e.quantity : ℤ) : ℚ) :=
      mul_nonneg (sub_nonneg.2 hle) (by exact_mod_cast hq0)
    split at hex
    · dsimp only at hex
      by_cases hfull : ex.quantity = min ex.quantity e.quantity
      · -- full fill on the buy side
        rw [if_pos hfull] at hex
        injection hex with hex
        subst hex
        refine ⟨?_, ?_, ?_, ?_, ?_, ?_, h7⟩
        · show -(c * (s.num_orders : ℚ)) ≤ s.money
              + (ex.price * ((min ex.quantity e.quantity : ℤ) : ℚ)
                 - e.price * ((min ex.quantity e.quantity : ℤ) : ℚ))
          nlinarith [h1, hrefund]
        · show s.held_money - ex.price * ((min ex.quantity e.quantity : ℤ) : ℚ)
              = held_money_target (toErase s.test_orders e.order_id) + pending_delete_sum rest
          rw [held_money_target_toErase hget]
          have hbh : bidHold ex = ex.price * ((min ex.quantity e.quantity : ℤ) : ℚ) := by
            rw [bidHold, if_pos hexB, ← hfull]
          rw [hpend] at h2
          linarith [h2, hbh]
        · intro p hp
          exact h3 p ((toErase_sublist _ _).subset hp)
        · intro p hp
          exact h4 p ((toErase_sublist _ _).subset hp)
        · exact List.Nodup.sublist ((toErase_sublist s.test_orders e.order_id).map Prod.fst) h5
        · intro m hm
          rcases hmsg0 m hm with hD' | hEE
          · exact Or.inl hD'
          · refine Or.inr ⟨hEE.1, hEE.2.1, hEE.2.2.1, hEE.2.2.2.1, ?_⟩
            intro t ht
            by_cases hoe : m.order_id = e.order_id
            · rw [hoe, toGet_toErase_self h5] at ht
              simp at ht
            · rw [toGet_toErase_ne _ hoe] at ht
              exact hEE.2.2.2.2 t ht
      · -- partial fill on the buy side
        rw [if_neg hfull] at hex
        injection hex with hex
        subst hex
        refine ⟨?_, ?_, ?_, ?_, ?_, ?_, h7⟩
        · show -(c * (s.num_orders : ℚ)) ≤ s.money
              + (ex.price * ((min ex.quantity e.quantity : ℤ) : ℚ)
                 - e.price * ((min ex.quantity e.quantity : ℤ) : ℚ))
          nlinarith [h1, hrefund]
        · show s.held_money - ex.price * ((min ex.quantity e.quantity : ℤ) : ℚ)
              = held_money_target (toSetQty s.test_orders e.order_id
                  (ex.quantity - min ex.quantity e.quantity)) + pending_delete_sum rest
          rw [held_money_target_toSetQty _ hget]
          have hbh : bidHold ex
              - bidHold { ex with quantity := ex.quantity - min ex.quantity e.quantity }
              = ex.price * ((min ex.quantity e.quantity : ℤ) : ℚ) := by
            rw [bidHold, bidHold]
            simp only [if_pos hexB]
            push_cast
            ring
          rw [hpend] at h2
          linarith [h2, hbh]
        · intro p hp
          rcases mem_toSetQty hp with hp | ⟨o, ho, rfl⟩
          · exact h3 p hp
          · have hwo := h3 _ ho
            refine ⟨hwo.1, hwo.2.1, ?_⟩
            show (0:ℤ) ≤ ex.quantity - min ex.quantity e.quantity
            omega
        · intro p hp
          rcases mem_toSetQty hp with hp | ⟨o, ho, rfl⟩
          · exact h4 p hp
          · exact h4 (e.order_id, o) ho
        · rw [keys_toSetQty]
          exact h5
        · intro m hm
          rcases hmsg0 m hm with hD' | hEE
          · exact Or.inl hD'
          · refine Or.inr ⟨hEE.1, hEE.2.1, hEE.2.2.1, hEE.2.2.2.1, ?_⟩
            intro t ht
            by_cases hoe : m.order_id = e.order_id
            · rw [hoe, toGet_toSetQty_self, hget] at ht
              simp at ht
              obtain ⟨hmle, hmB⟩ := hEE.2.2.2.2 ex (hoe ▸ hget)
              rw [← ht]
              exact ⟨hmle, hmB⟩
            · rw [toGet_toSetQty_ne _ _ hoe] at ht
              exact hEE.2.2.2.2 t ht
    · rename_i hnotB
      exact absurd hEw.1 hnotB

/-- Every scheduler action preserves the invariant. -/
theorem step_inv {c : ℚ} {s s' : BState} (hc : 0 ≤ c) (h : Inv c s) (hs : Step c s s') :
    Inv c s' := by
  cases hs with
  | fee k => exact inv_fee h k
  | hist o b' sc hwf htype hp hb => exact inv_hist h hb
  | price => exact inv_price h
  | sweep => exact inv_sweep h
  | addO o hwf htype hfresh => exact inv_add hc h hwf hfresh
  | cancelO o htype hside => exact inv_cancel h hside
  | delD d rest hq hD => exact inv_delD h hq hD
  | delE e rest s' hq hE hex => exact inv_delE h hq hE hex

/-- The invariant holds at construction time. -/
theorem inv_init (c m0 : ℚ) (st0 : ℤ) (lat : ℚ) (hm : 0 ≤ m0) :
    Inv c (mkInit m0 st0 lat) := by
  refine ⟨?_, ?_, ?_, ?_, ?_, ?_, ?_⟩ <;>
    simp [mkInit, held_money_target, pending_delete_sum, wfBook, hm]

/-- The invariant holds in every reachable state. -/
theorem reach_inv {c m0 : ℚ} {st0 : ℤ} {lat : ℚ} {s : BState} (hc : 0 ≤ c) (hm : 0 ≤ m0)
    (h : Reach c (mkInit m0 st0 lat) s) : Inv c s := by
  induction h with
  | refl => exact inv_init c m0 st0 lat hm
  | tail hr hs ih => exact step_inv hc ih hs

/-! ### The claims -/

/-- C1: the claim says the ask sweep works over exactly the agent's live
side-"S" orders.  In the source, `_run_asks` filters on `side == "A"`,
which no validly constructed order carries, so with a live test sell at
10 and a crossing public bid at 12 the sweep collects nothing, emits
nothing, and leaves the state untouched, while the spec's collection is
exactly the sell order. -/
theorem claim_c1_ask_sweep_dead :
    spec_live_sells c1_state = [c1_sell]
    ∧ c1_sell.side = "S" ∧ c1_sell.price < 12
    ∧ c1_state.book.bid_prices = [(12, 10)]
    ∧ collect_asks c1_state = []
    ∧ run_asks c1_state = c1_state := by
  decide

/-- C4 counterexample: constructing a cancel-request `Order` with
msg_type "C" fails (pydantic's literal set is {A, D, E}), and an order
with negative price and quantity is accepted. -/
theorem claim_c4_counterexample :
    Order.construct 0 0 "C" "X" "B" 1 1 1 = none
    ∧ (Order.construct 0 0 "A" "X" "B" (-1) (-5) 2).isSome := by
  decide

/-- C4 (amended): order construction succeeds exactly when msg_type is
"A", "D" or "E" and side is "B" or "S"; the signs of price and quantity
are not checked. -/
theorem claim_c4_amended (nt bt : ℚ) (mt an sd : String) (p : ℚ) (q oid : ℤ) :
    (Order.construct nt bt mt an sd p q oid).isSome
      ↔ (mt = "A" ∨ mt = "D" ∨ mt = "E") ∧ (sd = "B" ∨ sd = "S") := by
  unfold Order.construct
  split_ifs with h
  · simp [h]
  · simp [h]

/-- C4 witness: the amended characterisation applied at a concrete
negative-price, negative-quantity order. -/
theorem claim_c4_witness :
    (Order.construct 0 0 "A" "X" "B" (-1) (-5) 3).isSome :=
  (claim_c4_amended 0 0 "A" "X" "B" (-1) (-5) 3).mpr (by decide)

/-- C5: scenario S5 verified end to end on the code: the sweep emits
exactly 40@11 then 60@12 for bid 7, pushes the residual level (12, 140)
back, and after both executes are delivered the balance shows
money +40, held_money −1200, stock +100, id 7 finished and no longer
resting. -/
theorem claim_c5_partial_fill_scenario :
    (run_market_maker c5_state).bist2network = [c5_e1, c5_e2]
    ∧ (run_single_bid 100 1 c5_bid (Book.sorted_asks c5_state.book)).2.1 = [(12, 140)]
    ∧ drain (run_market_maker c5_state)
        = some { c5_state with
                   money := 40
                   held_money := 0
                   stock := 100
                   test_orders := []
                   finished_orders := [7, 7] }
    ∧ (7:ℤ) ∈ ((drain (run_market_maker c5_state)).getD c5_state).finished_orders
    ∧ toGet ((drain (run_market_maker c5_state)).getD c5_state).test_orders 7 = none :=
  of_decide_eq_true (by with_unfolding_all rfl)

/-- C9 counterexample: with bids {(10, 5)} and no asks,
`update_price_table` does not recompute anything: the stale
`best_bid_price = 3` survives instead of becoming the highest bid 10. -/
theorem claim_c9_counterexample :
    c9_book.bid_prices = [(10, 5)]
    ∧ c9_book.ask_prices = []
    ∧ (Book.update_price_table c9_book).price_table.best_bid_price = some 3
    ∧ (Book.update_price_table c9_book).price_table.best_bid_price ≠ some 10 := by
  decide

/-- C2 counterexample: starting from a fresh backtest with 90 money, the
agent adds bid id 5 (9 × 10, so 90 moves to held) and then cancels it.
On the instant after the cancel is processed — while its delete
confirmation is still in flight — `held_money` is 90 but the sum over
live test bids is 0, refuting the claimed equality at that instant. -/
theorem claim_c2_counterexample :
    ∃ s : BState, Reach 0 (mkInit 90 0 1) s
      ∧ (∃ d ∈ s.bist2network, d.msg_type = "D")
      ∧ s.held_money ≠ held_money_target s.test_orders := by
  have hside : ∀ t : Order, toGet c2_s1.test_orders c2_cxl.order_id = some t →
      c2_cxl.side = t.side := by
    intro t ht
    have he : toGet c2_s1.test_orders c2_cxl.order_id = some c2_bid :=
      of_decide_eq_true (by with_unfolding_all rfl)
    rw [he] at ht
    injection ht with ht
    rw [← ht]
    rfl
  have h1 : Step 0 (mkInit 90 0 1) c2_s1 :=
    Step.addO _ c2_bid (by unfold wfOrder; decide) rfl (by unfold freshId; decide)
  have h2 : Step 0 c2_s1 c2_s2 :=
    Step.cancelO _ c2_cxl rfl hside
  refine ⟨c2_s2, Reach.tail (Reach.tail Reach.refl h1) h2, ?_, ?_⟩
  · exact of_decide_eq_true (by with_unfolding_all rfl)
  · exact of_decide_eq_true (by with_unfolding_all rfl)

/-- C2 (amended): after every processed message, `held_money` equals the
sum over live test bids of price times remaining quantity **plus** the
amount promised by the side-"B" delete confirmations pending in the
bist→net queue; between a cancel and the delivery of its delete
confirmation the two sides differ by exactly that pending amount. -/
theorem claim_c2_amended {c m0 : ℚ} {st0 : ℤ} {lat : ℚ} {s : BState}
    (hc : 0 ≤ c) (hm : 0 ≤ m0) (h : Reach c (mkInit m0 st0 lat) s) :
    s.held_money = held_money_target s.test_orders + pending_delete_sum s.bist2network :=
  (reach_inv hc hm h).2.1

/-- C2 witness: the amended ledger equation checked on the concrete state
reached after the agent's bid 5 is admitted. -/
theorem claim_c2_witness :
    c2_s1.held_money = held_money_target c2_s1.test_orders
      + pending_delete_sum c2_s1.bist2network :=
  claim_c2_amended (le_refl 0) (by norm_num)
    (Reach.tail Reach.refl
      (Step.addO _ c2_bid (by unfold wfOrder; decide) rfl (by unfold freshId; decide)))

set_option maxRecDepth 4000 in
/-- C3 counterexample: from a fresh backtest, admit bid id 7 (12 × 10),
process a historical ask 11 × 40, and run the market maker.  The sweep
fully fills the bid, so 7 enters `finished_orders`, yet the order is
only removed from `test_orders` when the synthetic execute is delivered
— at this instant the claimed disjointness fails. -/
theorem claim_c3_counterexample :
    ∃ s : BState, Reach 0 (mkInit 120 0 1) s
      ∧ (7:ℤ) ∈ s.finished_orders
      ∧ (toGet s.test_orders 7).isSome := by
  have h1 : Step 0 (mkInit 120 0 1) c3_s1 :=
    Step.addO _ c3_a7 (by unfold wfOrder; decide) rfl (by unfold freshId; decide)
  have hb : Book.process c3_s1.book c3_h1 = some (c3_book, false) :=
    of_decide_eq_true (by with_unfolding_all rfl)
  have h2 : Step 0 c3_s1 c3_s2 :=
    Step.hist _ c3_h1 c3_book false (by unfold wfOrder; decide) (by decide) hb
      (by unfold wfBook; decide)
  have h3 : Step 0 c3_s2 (run_market_maker c3_s2) := Step.sweep _
  refine ⟨run_market_maker c3_s2,
    Reach.tail (Reach.tail (Reach.tail Reach.refl h1) h2) h3, ?_, ?_⟩
  · exact of_decide_eq_true (by with_unfolding_all rfl)
  · exact of_decide_eq_true (by with_unfolding_all rfl)

/-- C6: in every state reachable from a fresh backtest (non-negative
order cost and initial money, spec-conformant stream and agent),
`balance.money` is at least `-order_cost` times the number of orders the
agent has returned: the fee is the only mechanism that can drive money
negative — the add guard never overdraws, and the buy-side refund
`expected - cash` is non-negative because every emitted fill price is at
most the bid's limit price. -/
theorem claim_c6_money_bound {c m0 : ℚ} {st0 : ℤ} {lat : ℚ} {s : BState}
    (hc : 0 ≤ c) (hm : 0 ≤ m0) (h : Reach c (mkInit m0 st0 lat) s) :
    -(c * (s.num_orders : ℚ)) ≤ s.money :=
  (reach_inv hc hm h).1

/-- C6 witness: the bound applied to the state reached after an admitted
add from a concrete initial state. -/
theorem claim_c6_witness :
    -((0:ℚ) * ((execute_add (mkInit 100 0 0) c2_bid).num_orders : ℚ))
      ≤ (execute_add (mkInit 100 0 0) c2_bid).money :=
  claim_c6_money_bound (le_refl 0) (by norm_num)
    (Reach.tail Reach.refl
      (Step.addO _ c2_bid (by unfold wfOrder; decide) rfl (by unfold freshId; decide)))

theorem toGet_toErase_none {l : List (ℤ × Order)} {i j : ℤ} (h : toGet l i = none) :
    toGet (toErase l j) i = none :=
  toGet_none_of_not_mem_keys fun hm =>
    not_mem_keys_of_toGet_none h (((toErase_sublist l j).map Prod.fst).subset hm)

theorem toGet_toSetQty_none {l : List (ℤ × Order)} {i j v : ℤ} (h : toGet l i = none) :
    toGet (toSetQty l j v) i = none := by
  apply toGet_none_of_not_mem_keys
  rw [keys_toSetQty]
  exact not_mem_keys_of_toGet_none h

/-- C3 (amended): `finished_orders ∩ keys(test_orders) = ∅` is preserved
by every queue-message handler — add (with a fresh id), cancel, delete
delivery, and execute delivery (which restores it when the final fill of
a swept order arrives).  Only the market-maker sweep itself breaks it,
by marking a fully swept order finished while it stays in `test_orders`
until its synthetic executes are delivered. -/
theorem claim_c3_amended :
    (∀ s o, o.order_id ∉ s.finished_orders → disjoint_finished s →
        disjoint_finished (execute_add s o))
    ∧ (∀ s o, disjoint_finished s → disjoint_finished (execute_cancel s o))
    ∧ (∀ s o, disjoint_finished s → disjoint_finished (execute_delete s o))
    ∧ (∀ s o s', (s.test_orders.map Prod.fst).Nodup →
        execute_execute s o = some s' → disjoint_finished s → disjoint_finished s') := by
  refine ⟨?_, ?_, ?_, ?_⟩
  · intro s o hfr hd
    have hne : ∀ i ∈ s.finished_orders, i ≠ o.order_id := fun i hi he => hfr (he ▸ hi)
    unfold execute_add
    by_cases h1 : o.side = "B"
    · rw [if_pos h1]
      dsimp only
      by_cases h2 : s.money < o.price * (o.quantity : ℚ)
      · rw [if_pos h2]
        exact hd
      · rw [if_neg h2]
        intro i hi
        show toGet (toSet s.test_orders o.order_id o) i = none
        rw [toGet_toSet_ne _ _ _ (hne i hi)]
        exact hd i hi
    · rw [if_neg h1]
      by_cases h2 : s.stock < o.quantity
      · rw [if_pos h2]
        exact hd
      · rw [if_neg h2]
        intro i hi
        show toGet (toSet s.test_orders o.order_id o) i = none
        rw [toGet_toSet_ne _ _ _ (hne i hi)]
        exact hd i hi
  · intro s o hd
    unfold execute_cancel
    cases hget : toGet s.test_orders o.order_id with
    | none => exact hd
    | some c =>
      intro i hi
      show toGet (toErase s.test_orders o.order_id) i = none
      exact toGet_toErase_none (hd i hi)
  · intro s o hd
    unfold execute_delete
    split_ifs <;> exact hd
  · intro s o s' hnd hex hd
    unfold execute_execute at hex
    split at hex
    · exact absurd hex (by simp)
    · rename_i ex hget
      split at hex
      · dsimp only at hex
        by_cases hfull : ex.quantity = min ex.quantity o.quantity
        · rw [if_pos hfull] at hex
          injection hex with hex
          subst hex
          intro i hi
          have hi' : i ∈ s.finished_orders ++ [o.order_id] := hi
          show toGet (toErase s.test_orders o.order_id) i = none
          rcases List.mem_append.1 hi' with hi2 | hi2
          · exact toGet_toErase_none (hd i hi2)
          · simp at hi2
            subst hi2
            exact toGet_toErase_self hnd
        · rw [if_neg hfull] at hex
          injection hex with hex
          subst hex
          intro i hi
          show toGet (toSetQty s.test_orders o.order_id
              (ex.quantity - min ex.quantity o.quantity)) i = none
          exact toGet_toSetQty_none (hd i hi)
      · dsimp only at hex
        by_cases hfull : ex.quantity = min ex.quantity o.quantity
        · rw [if_pos hfull] at hex
          injection hex with hex
          subst hex
          intro i hi
          have hi' : i ∈ s.finished_orders ++ [o.order_id] := hi
          show toGet (toErase s.test_orders o.order_id) i = none
          rcases List.mem_append.1 hi' with hi2 | hi2
          · exact toGet_toErase_none (hd i hi2)
          · simp at hi2
            subst hi2
            exact toGet_toErase_self hnd
        · rw [if_neg hfull] at hex
          injection hex with hex
          subst hex
          intro i hi
          show toGet (toSetQty s.test_orders o.order_id
              (ex.quantity - min ex.quantity o.quantity)) i = none
          exact toGet_toSetQty_none (hd i hi)

/-- C3 witness: the add-preservation conjunct applied at a concrete
fresh state and order. -/
theorem claim_c3_witness : disjoint_finished (execute_add (mkInit 50 0 0) c2_bid) :=
  claim_c3_amended.1 (mkInit 50 0 0) c2_bid (by decide)
    (by unfold disjoint_finished; decide)

/-- C8: running the market maker never touches the public book, the
net→bist queue, or the resting test orders; the only queue it appends to
is bist→net. -/
theorem claim_c8_market_maker_frame (s : BState) :
    (run_market_maker s).book = s.book
    ∧ (run_market_maker s).network2bist = s.network2bist
    ∧ (run_market_maker s).test_orders = s.test_orders
    ∧ ∃ t, (run_market_maker s).bist2network = s.bist2network ++ t := by
  refine ⟨rfl, rfl, rfl,
    ⟨(run_bids_loop s.last_timestamp s.latency (collect_bids s) s.book.sorted_asks).1
      ++ (run_asks_loop s.last_timestamp s.latency (collect_asks (run_bids s))
          s.book.sorted_bids).1, ?_⟩⟩
  show (s.bist2network
        ++ (run_bids_loop s.last_timestamp s.latency (collect_bids s) s.book.sorted_asks).1)
      ++ (run_asks_loop s.last_timestamp s.latency (collect_asks (run_bids s))
          s.book.sorted_bids).1
    = _
  exact List.append_assoc s.bist2network _ _

/-- C8 witness: the frame property at the concrete S5 state. -/
theorem claim_c8_witness :
    (run_market_maker c5_state).book = c5_state.book
    ∧ (run_market_maker c5_state).network2bist = c5_state.network2bist
    ∧ (run_market_maker c5_state).test_orders = c5_state.test_orders
    ∧ ∃ t, (run_market_maker c5_state).bist2network = c5_state.bist2network ++ t :=
  claim_c8_market_maker_frame c5_state

/-- C9 (amended): `update_price_table` recomputes `best_bid` (highest bid
price), `best_ask` (lowest ask price) and `mid` (their average) only
when both sides of the book are non-empty; when either side is empty it
leaves the whole price table unchanged, and it never writes `last_bid`
or `last_ask`. -/
theorem eq_nil_of_getLast?_eq_none {α : Type} {l : List α} (h : l.getLast? = none) :
    l = [] := by
  cases l with
  | nil => rfl
  | cons x xs =>
    exfalso
    induction xs generalizing x with
    | nil => simp at h
    | cons y ys ih =>
      rw [List.getLast?_cons_cons] at h
      exact ih y h

theorem claim_c9_amended (b : Book) :
    ((b.bid_prices ≠ [] ∧ b.ask_prices ≠ []) →
      ∃ bb aa, (Book.update_price_table b).price_table.best_bid_price = some bb
        ∧ (Book.update_price_table b).price_table.best_ask_price = some aa
        ∧ (Book.update_price_table b).price_table.mid_price = some ((bb + aa) / 2)
        ∧ bb ∈ b.bid_prices.map Prod.fst ∧ (∀ p ∈ b.bid_prices.map Prod.fst, p ≤ bb)
        ∧ aa ∈ b.ask_prices.map Prod.fst ∧ (∀ p ∈ b.ask_prices.map Prod.fst, aa ≤ p))
    ∧ ((b.bid_prices = [] ∨ b.ask_prices = []) → Book.update_price_table b = b)
    ∧ (Book.update_price_table b).price_table.last_bid_price = b.price_table.last_bid_price
    ∧ (Book.update_price_table b).price_table.last_ask_price = b.price_table.last_ask_price := by
  unfold Book.update_price_table
  cases hbb : (Book.sorted_bids b).getLast? with
  | none =>
    have hnil : b.bid_prices = [] :=
      (sortAsc_eq_nil Prod.fst b.bid_prices).1 (eq_nil_of_getLast?_eq_none hbb)
    refine ⟨?_, fun _ => rfl, rfl, rfl⟩
    intro hne
    exact absurd hnil hne.1
  | some bb =>
    cases haa : (Book.sorted_asks b).getLast? with
    | none =>
      have hnil : b.ask_prices = [] :=
        (sortDesc_eq_nil Prod.fst b.ask_prices).1 (eq_nil_of_getLast?_eq_none haa)
      refine ⟨?_, fun _ => rfl, rfl, rfl⟩
      intro hne
      exact absurd hnil hne.2
    | some aa =>
      refine ⟨?_, ?_, rfl, rfl⟩
      · intro _
        refine ⟨bb.1, aa.1, rfl, rfl, rfl, ?_, ?_, ?_, ?_⟩
        · have := (sortAsc_perm Prod.fst b.bid_prices).mem_iff.1 (mem_of_getLast?' hbb)
          exact List.mem_map.2 ⟨bb, this, rfl⟩
        · intro p hp
          obtain ⟨x, hx, rfl⟩ := List.mem_map.1 hp
          have hx' := (sortAsc_perm Prod.fst b.bid_prices).symm.mem_iff.1 hx
          rcases pairwise_getLast (sortAsc_pairwise Prod.fst b.bid_prices) hbb x hx'
            with rfl | hle
          · exact le_refl _
          · exact hle
        · have := (sortDesc_perm Prod.fst b.ask_prices).mem_iff.1 (mem_of_getLast?' haa)
          exact List.mem_map.2 ⟨aa, this, rfl⟩
        · intro p hp
          obtain ⟨x, hx, rfl⟩ := List.mem_map.1 hp
          have hx' := (sortDesc_perm Prod.fst b.ask_prices).symm.mem_iff.1 hx
          rcases pairwise_getLast (sortDesc_pairwise Prod.fst b.ask_prices) haa x hx'
            with rfl | hle
          · exact le_refl _
          · exact hle
      · intro h
        rcases h with h | h
        · have h0 : Book.sorted_bids b = [] := by
            unfold Book.sorted_bids
            rw [h]
            rfl
          rw [h0] at hbb
          simp at hbb
        · have h0 : Book.sorted_asks b = [] := by
            unfold Book.sorted_asks
            rw [h]
            rfl
          rw [h0] at haa
          simp at haa

/-- C9 witness: the amended refresh behaviour applied at a concrete
two-sided book. -/
theorem claim_c9_witness :
    ∃ bb aa, (Book.update_price_table c9w_book).price_table.best_bid_price = some bb
      ∧ (Book.update_price_table c9w_book).price_table.best_ask_price = some aa
      ∧ (Book.update_price_table c9w_book).price_table.mid_price = some ((bb + aa) / 2)
      ∧ bb ∈ c9w_book.bid_prices.map Prod.fst
      ∧ (∀ p ∈ c9w_book.bid_prices.map Prod.fst, p ≤ bb)
      ∧ aa ∈ c9w_book.ask_prices.map Prod.fst
      ∧ (∀ p ∈ c9w_book.ask_prices.map Prod.fst, aa ≤ p) :=
  (claim_c9_amended c9w_book).1 (by decide)

theorem create_snapshot_maps (b : Book) :
    (Book.create_snapshot b).orders = b.orders
    ∧ (Book.create_snapshot b).bid_prices = b.bid_prices
    ∧ (Book.create_snapshot b).ask_prices = b.ask_prices := by
  unfold Book.create_snapshot
  split_ifs <;> exact ⟨rfl, rfl, rfl⟩

theorem presnap_maps (b : Book) (o : Order) :
    (Book.presnap b o).1.orders = b.orders
    ∧ (Book.presnap b o).1.bid_prices = b.bid_prices
    ∧ (Book.presnap b o).1.ask_prices = b.ask_prices := by
  unfold Book.presnap
  dsimp only
  split_ifs with h
  · exact create_snapshot_maps b
  · exact ⟨rfl, rfl, rfl⟩

theorem process_A (b : Book) (o : Order) (ha : o.msg_type = "A") :
    Book.process b o
      = some (Book.processAdd (Book.presnap b o).1 o, (Book.presnap b o).2) := by
  unfold Book.process
  dsimp only
  rw [if_pos ha]

theorem process_D (b : Book) (o : Order) (hd : o.msg_type = "D") :
    Book.process b o
      = (Book.processDelete (Book.presnap b o).1 o).map (·, (Book.presnap b o).2) := by
  unfold Book.process
  dsimp only
  rw [if_neg (by rw [hd]; decide), if_pos hd]

theorem processAdd_orders (b : Book) (o : Order) :
    (Book.processAdd b o).orders = toSet b.orders o.order_id o := by
  unfold Book.processAdd
  dsimp only
  split_ifs <;> rfl

theorem processAdd_maps_B (b : Book) (o : Order) (hs : o.side = "B") :
    (Book.processAdd b o).bid_prices
      = pmSet b.bid_prices o.price ((pmGet b.bid_prices o.price).getD 0 + o.quantity)
    ∧ (Book.processAdd b o).ask_prices = b.ask_prices := by
  unfold Book.processAdd
  dsimp only
  rw [if_pos hs]
  exact ⟨rfl, rfl⟩

theorem processAdd_maps_nB (b : Book) (o : Order) (hs : ¬ o.side = "B") :
    (Book.processAdd b o).ask_prices
      = pmSet b.ask_prices o.price ((pmGet b.ask_prices o.price).getD 0 + o.quantity)
    ∧ (Book.processAdd b o).bid_prices = b.bid_prices := by
  unfold Book.processAdd
  dsimp only
  rw [if_neg hs]
  exact ⟨rfl, rfl⟩

theorem processDelete_eq_B (b : Book) (o dd : Order) (v : ℤ)
    (hget : toGet b.orders o.order_id = some dd) (hs : o.side = "B")
    (hpm : pmGet b.bid_prices dd.price = some v) :
    Book.processDelete b o = some
      { b with
          orders := toErase b.orders o.order_id
          bid_prices := if dd.quantity = v then pmErase b.bid_prices dd.price
            else pmSet b.bid_prices dd.price (v - dd.quantity)
          mold_package := b.mold_package
            ++ [{ o with quantity := dd.quantity, price := dd.price }] } := by
  unfold Book.processDelete
  rw [hget]
  dsimp only
  rw [if_pos hs, hpm]

theorem processDelete_eq_nB (b : Book) (o dd : Order) (v : ℤ)
    (hget : toGet b.orders o.order_id = some dd) (hs : ¬ o.side = "B")
    (hpm : pmGet b.ask_prices dd.price = some v) :
    Book.processDelete b o = some
      { b with
          orders := toErase b.orders o.order_id
          ask_prices := if dd.quantity = v then pmErase b.ask_prices dd.price
            else pmSet b.ask_prices dd.price (v - dd.quantity)
          mold_package := b.mold_package
            ++ [{ o with quantity := dd.quantity, price := dd.price }] } := by
  unfold Book.processDelete
  rw [hget]
  dsimp only
  rw [if_neg hs, hpm]

/-- The price-map round trip of an add followed by its delete: starting
from a map with no zero entries, writing `old + q` at a price and then
applying the delete logic (drop the entry when the subtracted quantity
equals the stored one, decrement otherwise) restores the map exactly. -/
theorem pm_roundtrip (m : List (ℚ × ℤ)) (p : ℚ) (q : ℤ)
    (hw : ∀ pq ∈ m, pq.2 ≠ (0:ℤ)) :
    (if q = (pmGet m p).getD 0 + q
     then pmErase (pmSet m p ((pmGet m p).getD 0 + q)) p
     else pmSet (pmSet m p ((pmGet m p).getD 0 + q)) p ((pmGet m p).getD 0 + q - q)) = m := by
  cases hpm : pmGet m p with
  | none =>
    simp only [Option.getD_none, zero_add]
    rw [if_pos trivial, pmSet_absent _ hpm, pmErase_append _ hpm]
  | some v =>
    have hv := hw (p, v) (pmGet_mem hpm)
    simp only [Option.getD_some]
    rw [if_neg (by omega)]
    have h1 : v + q - q = v := by omega
    rw [h1, pmSet_set, pmGet_self_set hpm]

/-- C7: processing a valid add with a fresh order id and then the
matching delete restores the bid price map, the ask price map, and the
per-id order map, on every book whose price maps hold no zero entries
(the engine pops an entry exactly when its quantity reaches zero, so a
created entry is removed rather than left at zero, and a pre-existing
level is decremented back to its prior quantity). -/
theorem claim_c7_add_delete_roundtrip (b : Book) (a d : Order)
    (ha : a.msg_type = "A") (hd : d.msg_type = "D")
    (hid : d.order_id = a.order_id) (hsd : d.side = a.side)
    (hfresh : toGet b.orders a.order_id = none)
    (hwb : ∀ pq ∈ b.bid_prices, pq.2 ≠ (0:ℤ))
    (hwa : ∀ pq ∈ b.ask_prices, pq.2 ≠ (0:ℤ)) :
    ∃ b1 sc1 b2 sc2, Book.process b a = some (b1, sc1)
      ∧ Book.process b1 d = some (b2, sc2)
      ∧ b2.bid_prices = b.bid_prices ∧ b2.ask_prices = b.ask_prices
      ∧ b2.orders = b.orders := by
  obtain ⟨pa1, pa2, pa3⟩ := presnap_maps b a
  have hA := process_A b a ha
  have hD := process_D (Book.processAdd (Book.presnap b a).1 a) d hd
  obtain ⟨pd1, pd2, pd3⟩ := presnap_maps (Book.processAdd (Book.presnap b a).1 a) d
  have horders1 : (Book.processAdd (Book.presnap b a).1 a).orders
      = toSet b.orders a.order_id a := by
    rw [processAdd_orders, pa1]
  have hget2 : toGet (Book.presnap (Book.processAdd (Book.presnap b a).1 a) d).1.orders
      d.order_id = some a := by
    rw [pd1, horders1, hid]
    exact toGet_toSet_self _ _ _
  have horders2 : toErase (Book.presnap (Book.processAdd (Book.presnap b a).1 a) d).1.orders
      d.order_id = b.orders := by
    rw [pd1, horders1, hid, toSet_absent a hfresh, toErase_append a hfresh]
  by_cases hside : a.side = "B"
  · have hsd' : d.side = "B" := by rw [hsd, hside]
    obtain ⟨hb1bid, hb1ask⟩ := processAdd_maps_B (Book.presnap b a).1 a hside
    rw [pa2] at hb1bid
    rw [pa3] at hb1ask
    have hpm2 : pmGet (Book.presnap (Book.processAdd (Book.presnap b a).1 a) d).1.bid_prices
        a.price = some ((pmGet b.bid_prices a.price).getD 0 + a.quantity) := by
      rw [pd2, hb1bid]
      exact pmGet_set_self _ _ _
    have hDel := processDelete_eq_B _ d a _ hget2 hsd' hpm2
    rw [hDel] at hD
    refine ⟨_, _, _, _, hA, hD, ?_, ?_, ?_⟩
    · show (if a.quantity = (pmGet b.bid_prices a.price).getD 0 + a.quantity
          then pmErase (Book.presnap (Book.processAdd (Book.presnap b a).1 a) d).1.bid_prices
            a.price
          else pmSet (Book.presnap (Book.processAdd (Book.presnap b a).1 a) d).1.bid_prices
            a.price ((pmGet b.bid_prices a.price).getD 0 + a.quantity - a.quantity))
        = b.bid_prices
      rw [pd2, hb1bid]
      exact pm_roundtrip b.bid_prices a.price a.quantity hwb
    · show (Book.presnap (Book.processAdd (Book.presnap b a).1 a) d).1.ask_prices
        = b.ask_prices
      rw [pd3, hb1ask]
    · exact horders2
  · have hsd' : ¬ d.side = "B" := by rw [hsd]; exact hside
    obtain ⟨hb1ask, hb1bid⟩ := processAdd_maps_nB (Book.presnap b a).1 a hside
    rw [pa3] at hb1ask
    rw [pa2] at hb1bid
    have hpm2 : pmGet (Book.presnap (Book.processAdd (Book.presnap b a).1 a) d).1.ask_prices
        a.price = some ((pmGet b.ask_prices a.price).getD 0 + a.quantity) := by
      rw [pd3, hb1ask]
      exact pmGet_set_self _ _ _
    have hDel := processDelete_eq_nB _ d a _ hget2 hsd' hpm2
    rw [hDel] at hD
    refine ⟨_, _, _, _, hA, hD, ?_, ?_, ?_⟩
    · show (Book.presnap (Book.processAdd (Book.presnap b a).1 a) d).1.bid_prices
        = b.bid_prices
      rw [pd2, hb1bid]
    · show (if a.quantity = (pmGet b.ask_prices a.price).getD 0 + a.quantity
          then pmErase (Book.presnap (Book.processAdd (Book.presnap b a).1 a) d).1.ask_prices
            a.price
          else pmSet (Book.presnap (Book.processAdd (Book.presnap b a).1 a) d).1.ask_prices
            a.price ((pmGet b.ask_prices a.price).getD 0 + a.quantity - a.quantity))
        = b.ask_prices
      rw [pd3, hb1ask]
      exact pm_roundtrip b.ask_prices a.price a.quantity hwa
    · exact horders2

/-- C7 witness: the round trip applied to a concrete book with one
pre-existing bid level. -/
theorem claim_c7_witness :
    ∃ b1 sc1 b2 sc2, Book.process c7_book c7_a = some (b1, sc1)
      ∧ Book.process b1 c7_d = some (b2, sc2)
      ∧ b2.bid_prices = c7_book.bid_prices ∧ b2.ask_prices = c7_book.ask_prices
      ∧ b2.orders = c7_book.orders :=
  claim_c7_add_delete_roundtrip c7_book c7_a c7_d rfl rfl rfl rfl rfl
    (by decide) (by decide)

end Liquidity
